import Mathlib

/-
Verification development for the subtitle-translation core
(backend/translatorApi/app/utils.py).

Strings are modelled as `List Char` (`Str`).  Python string and `re`
operations used by the source are embedded as executable Lean functions,
each specialised to the concrete pattern appearing in the source; the
ASCII fragment of Python's semantics is modelled (plus the accented
Latin letters that occur literally in the source's patterns).  Network
calls are modelled by explicit oracle parameters; a `time.sleep` is
recorded in a returned trace instead of performed.

Scanning functions that consume a varying number of characters per step
are written by structural recursion on a fuel argument; every step
consumes at least one character, so fuel equal to the input length is
always sufficient, and each fuel-zero branch agrees with the
empty-input branch.  Wrappers pass `s.length` as fuel.
-/

set_option maxRecDepth 20000

abbrev Str := List Char

-- Characters written via code points to keep literals simple.
def quoteC : Char := Char.ofNat 34

def braceL : Char := Char.ofNat 123

def braceR : Char := Char.ofNat 125

-- Python `str.isspace` / regex `\s`, ASCII fragment.
def isWsC (c : Char) : Bool :=
  c = ' ' || c = '\t' || c = '\n' || c = '\r' || c = Char.ofNat 11 || c = Char.ofNat 12

def isDigitC (c : Char) : Bool := '0' ≤ c && c ≤ '9'

def isLowerC (c : Char) : Bool := 'a' ≤ c && c ≤ 'z'

def isUpperC (c : Char) : Bool := 'A' ≤ c && c ≤ 'Z'

def isAlphaC (c : Char) : Bool := isLowerC c || isUpperC c

-- regex word character `\w`, ASCII fragment.
def isWordC (c : Char) : Bool := isAlphaC c || isDigitC c || c = '_'

-- Python `str.lower`, restricted to ASCII plus the accented letters
-- that occur in the source's patterns.
def lowerC (c : Char) : Char :=
  if isUpperC c then Char.ofNat (c.toNat + 32)
  else if c = 'Ç' then 'ç'
  else if c = 'Ã' then 'ã'
  else if c = 'Õ' then 'õ'
  else if c = 'É' then 'é'
  else if c = 'Ú' then 'ú'
  else if c = 'Í' then 'í'
  else if c = 'Ó' then 'ó'
  else if c = 'Á' then 'á'
  else if c = 'Ê' then 'ê'
  else if c = 'Ô' then 'ô'
  else if c = 'À' then 'à'
  else if c = 'Â' then 'â'
  else c

-- Python `str.upper`, same fragment.
def upperC (c : Char) : Char :=
  if isLowerC c then Char.ofNat (c.toNat - 32)
  else if c = 'ç' then 'Ç'
  else if c = 'ã' then 'Ã'
  else if c = 'õ' then 'Õ'
  else if c = 'é' then 'É'
  else if c = 'ú' then 'Ú'
  else if c = 'í' then 'Í'
  else if c = 'ó' then 'Ó'
  else if c = 'á' then 'Á'
  else if c = 'ê' then 'Ê'
  else if c = 'ô' then 'Ô'
  else if c = 'à' then 'À'
  else if c = 'â' then 'Â'
  else c

def lowerS (s : Str) : Str := s.map lowerC

def upperS (s : Str) : Str := s.map upperC

-- Python `str.strip()` (both ends), ASCII whitespace.
def stripL (s : Str) : Str := s.dropWhile (fun c => isWsC c)

def strip (s : Str) : Str := ((stripL s).reverse.dropWhile (fun c => isWsC c)).reverse

-- Python `s.split(sep)` for a one-character separator.
def splitOnC (sep : Char) (s : Str) : List Str :=
  s.foldr
    (fun c acc =>
      match acc with
      | [] => if c = sep then [[], []] else [[c]]
      | t :: ts => if c = sep then [] :: t :: ts else (c :: t) :: ts)
    [[]]

-- Python `"\n".join`, `"\n\n".join`, `" ".join`.
def joinNl (xs : List Str) : Str := List.intercalate ['\n'] xs

def joinBlank (xs : List Str) : Str := List.intercalate ['\n', '\n'] xs

def joinSpace (xs : List Str) : Str := List.intercalate [' '] xs

-- `pat` is a prefix of `s` (exact characters).
def hasPre : Str → Str → Bool
  | [], _ => true
  | _ :: _, [] => false
  | p :: ps, c :: cs => p = c && hasPre ps cs

-- Python `pat in s` (substring containment).
def hasSub (p : Str) : Str → Bool
  | [] => hasPre p []
  | c :: cs => hasPre p (c :: cs) || hasSub p cs

-- regex `\s+` collapse, `re.sub(r'\s+', ' ', s)`, as a one-pass state
-- machine: each maximal whitespace run becomes a single space.
def collapseGo : Bool → Str → Str
  | _, [] => []
  | inWs, c :: cs =>
    if isWsC c then
      if inWs then collapseGo true cs else ' ' :: collapseGo true cs
    else c :: collapseGo false cs

def collapseWs (s : Str) : Str := collapseGo false s

-- `re.sub(r'<[^>]+>', '', s)`: delete each `<`…`>` span holding at
-- least one non-`>` character; a `<` with no matching `>` (or
-- immediately followed by `>`) starts no match and is kept.
def stripTagsF : Nat → Str → Str
  | 0, _ => []
  | _ + 1, [] => []
  | n + 1, c :: cs =>
    if c = '<' then
      match cs.findIdx? (fun x => x = '>') with
      | some j => if j = 0 then c :: stripTagsF n cs else stripTagsF n (cs.drop (j + 1))
      | none => c :: stripTagsF n cs
    else c :: stripTagsF n cs

def stripTags (s : Str) : Str := stripTagsF s.length s

-- `re.sub(r'\{[^}]*\}', '', s)`: delete each `{`…`}` span (empty body
-- allowed); an unmatched `{` is kept.
def stripBracesF : Nat → Str → Str
  | 0, _ => []
  | _ + 1, [] => []
  | n + 1, c :: cs =>
    if c = braceL then
      match cs.findIdx? (fun x => x = braceR) with
      | some j => stripBracesF n (cs.drop (j + 1))
      | none => c :: stripBracesF n cs
    else c :: stripBracesF n cs

def stripBraces (s : Str) : Str := stripBracesF s.length s

-- Exactly `n` digits.
def pDigits (n : Nat) (s : Str) : Option Str :=
  if (s.take n).length = n && (s.take n).all (fun c => isDigitC c) then some (s.drop n)
  else none

def pLit (c : Char) : Str → Option Str
  | [] => none
  | x :: xs => if x = c then some xs else none

-- `HH:MM:SS,mmm`.
def pTime (s : Str) : Option Str := do
  let s ← pDigits 2 s
  let s ← pLit ':' s
  let s ← pDigits 2 s
  let s ← pLit ':' s
  let s ← pDigits 2 s
  let s ← pLit ',' s
  pDigits 3 s

-- `re.match(r'\d{2}:\d{2}:\d{2},\d{3}\s*-->\s*\d{2}:\d{2}:\d{2},\d{3}', s)`:
-- prefix match (trailing content is allowed by `re.match`).
def tsMatch (s : Str) : Bool :=
  (do
    let s ← pTime s
    let s := s.dropWhile (fun c => isWsC c)
    let s ← pLit '-' s
    let s ← pLit '-' s
    let s ← pLit '>' s
    let s := s.dropWhile (fun c => isWsC c)
    pTime s).isSome

-- Python `int(s)` acceptance on an already-stripped string: optional
-- sign, then digits with single underscores allowed between digits
-- (ASCII digits modelled).
def pyDigitsRest : Str → Bool
  | [] => true
  | '_' :: c :: cs => isDigitC c && pyDigitsRest cs
  | c :: cs => isDigitC c && pyDigitsRest cs

def pyDigits1 : Str → Bool
  | [] => false
  | c :: cs => isDigitC c && pyDigitsRest cs

def pyIntOk (s : Str) : Bool :=
  match s with
  | [] => false
  | c :: cs => if c = '+' || c = '-' then pyDigits1 cs else pyDigits1 (c :: cs)

/-
`re.split(r'\n\s*\n', s)`.  A match is a newline followed by a greedy
whitespace run that still leaves a final newline; scanning resumes after
the match.  `blankEnd r` inspects the text after the leading newline and
returns how many characters of `r` the match still consumes.
-/
def blankEnd (r : Str) : Option Nat :=
  let w := r.takeWhile (fun c => isWsC c)
  match w.reverse.findIdx? (fun c => c = '\n') with
  | some k => some (w.length - k)
  | none => none

def splitBLF : Nat → Str → Str → List Str → List Str
  | 0, _, cur, acc => (cur.reverse :: acc).reverse
  | _ + 1, [], cur, acc => (cur.reverse :: acc).reverse
  | n + 1, c :: cs, cur, acc =>
    if c = '\n' then
      match blankEnd cs with
      | some m => splitBLF n (cs.drop m) [] (cur.reverse :: acc)
      | none => splitBLF n cs (c :: cur) acc
    else splitBLF n cs (c :: cur) acc

def splitBL (s : Str) : List Str := splitBLF s.length s [] []

example : splitBL "a\n\nb".data = ["a".data, "b".data] := by decide

example : splitBL "a\n \n\nb".data = ["a".data, "b".data] := by decide

example : splitBL "".data = ["".data] := by decide

example : strip "  ab ".data = "ab".data := by decide

example : collapseWs "a  b\nc".data = "a b c".data := by decide

example : stripTags "<b>x</b><>y<z".data = "x<>y<z".data := by decide

example : stripBraces ("ab".data ++ [braceL] ++ "an8".data ++ [braceR] ++ "c".data) = "abc".data := by decide

example : tsMatch "00:01:23,456 --> 00:01:26,789 tail".data = true := by decide

example : tsMatch "0:01:23,456 --> 00:01:26,789".data = false := by decide

example : pyIntOk "-5".data = true := by decide

example : pyIntOk "1_0".data = true := by decide

example : pyIntOk "x1".data = false := by decide

example : splitOnC '\n' "a\nb\n".data = ["a".data, "b".data, "".data] := by decide

/-
Document parser: `extract_text_from_srt` (utils.py lines 283-424).
-/

-- `re.finditer(r'<font[^>]*>', s, re.IGNORECASE)`: length of a font
-- open tag starting at the head of `s`, if any.
def fontTagLen (s : Str) : Option Nat :=
  if lowerS (s.take 5) = "<font".data then
    match (s.drop 5).findIdx? (fun x => x = '>') with
    | some j => some (5 + j + 1)
    | none => none
  else none

def findFontStartsF : Nat → Nat → Str → List Nat
  | 0, _, _ => []
  | _ + 1, _, [] => []
  | n + 1, pos, c :: cs =>
    match fontTagLen (c :: cs) with
    | some L => pos :: findFontStartsF n (pos + L) ((c :: cs).drop L)
    | none => findFontStartsF n (pos + 1) cs

def findFontStarts (s : Str) : List Nat := findFontStartsF s.length 0 s

-- Character-by-character tag walker (utils.py lines 337-370).  `stack`
-- counts nested open font tags (the Python list only ever holds the
-- string 'font'); text is captured while `inText` holds and the stack
-- is non-empty; reaching stack zero on a `</font>` breaks out.
def walkF : Nat → Str → Nat → Bool → Str → Str
  | 0, _, _, _, acc => acc.reverse
  | _ + 1, [], _, _, acc => acc.reverse
  | n + 1, c :: cs, stack, inText, acc =>
    let s := c :: cs
    if lowerS (s.take 5) = "<font".data then
      match s.findIdx? (fun x => x = '>') with
      | some j => walkF n (s.drop (j + 1)) (stack + 1) true acc
      | none => walkF n cs stack inText acc
    else if lowerS (s.take 7) = "</font>".data then
      if stack > 0 then
        if stack - 1 = 0 then acc.reverse
        else walkF n (s.drop 7) (stack - 1) inText acc
      else walkF n (s.drop 7) stack inText acc
    else if lowerS (s.take 3) = "<b>".data then walkF n (s.drop 3) stack inText acc
    else if lowerS (s.take 4) = "</b>".data then walkF n (s.drop 4) stack inText acc
    else if c = '<' then
      match s.findIdx? (fun x => x = '>') with
      | some j => walkF n (s.drop (j + 1)) stack inText acc
      | none => walkF n cs stack inText acc
    else
      if inText && stack > 0 then walkF n cs stack inText (c :: acc)
      else walkF n cs stack inText acc

-- Per-font-start extraction loop (utils.py lines 334-377).  The
-- source's `used_ranges` set is initialized but never read or written
-- afterwards, so it has no counterpart here.
def fontExtract (content : Str) : List Str :=
  (findFontStarts content).foldl
    (fun acc start =>
      let rem := content.drop start
      let txt := walkF rem.length rem 0 false []
      if txt ≠ [] then
        let clean := strip (collapseWs txt)
        let clean := strip (stripBraces clean)
        if clean ≠ [] ∧ clean ∉ acc then acc ++ [clean] else acc
      else acc)
    []

-- Lines 327-384: font-tag extraction when a literal `<font` occurs
-- (case-sensitive containment test), else the regex-strip fallback.
def extractTexts (content : Str) : List Str :=
  let e := if hasSub "<font".data content then fontExtract content else []
  if e = [] then
    let clean := strip (collapseWs (stripBraces (stripTags content)))
    if clean ≠ [] then [clean] else []
  else e

structure SubBlock where
  block_number : Str
  timestamp : Str
  content : Str
  text_index : Option Int
  has_text : Bool
  extracted_texts : Option (List Str)
  original_block : Str
deriving DecidableEq

-- Outcome of the per-block validation and extraction (lines 291-422):
-- dropped (`none`), kept without translatable text, or kept with the
-- combined fragment text.
inductive BlockOut where
  | noText (num ts content orig : Str)
  | withText (num ts content orig : Str) (extracted : List Str) (frag : Str)
deriving DecidableEq

def processBlock (b : Str) : Option BlockOut :=
  let block := strip b
  if block = [] then none
  else
    let lines := splitOnC '\n' block
    if lines.length < 2 then none
    else
      let num := strip (lines.getD 0 [])
      if ¬ pyIntOk num then none
      else
        let ts := strip (lines.getD 1 [])
        if ¬ tsMatch ts then none
        else
          let content := strip (joinNl (lines.drop 2))
          if content = [] then some (.noText num ts [] block)
          else
            let ex := extractTexts content
            if ex ≠ [] then
              let combined := strip (collapseWs (stripBraces (joinSpace ex)))
              if combined.length < 2 then some (.noText num ts content block)
              else some (.withText num ts content block ex combined)
            else some (.noText num ts content block)

def extractStep (st : List Str × List SubBlock) (b : Str) : List Str × List SubBlock :=
  match processBlock b with
  | none => st
  | some (.noText num ts content orig) =>
    (st.1, st.2 ++ [⟨num, ts, content, none, false, none, orig⟩])
  | some (.withText num ts content orig ex frag) =>
    (st.1 ++ [frag], st.2 ++ [⟨num, ts, content, some (st.1.length : Int), true, some ex, orig⟩])

def extract_text_from_srt (s : Str) : List Str × List SubBlock :=
  (splitBL (strip s)).foldl extractStep ([], [])

example :
    (extract_text_from_srt "1\n00:00:01,000 --> 00:00:02,000\nHello world".data).1 =
      ["Hello world".data] := by decide

example :
    (extract_text_from_srt "junk\n\n1\n00:00:01,000 --> 00:00:02,000\nHi there".data).1 =
      ["Hi there".data] := by decide

example :
    (extract_text_from_srt "1\n00:00:01,000 --> 00:00:02,000\nHello <font color=red>John</font>".data).1 =
      ["John".data] := by decide

example :
    (extract_text_from_srt "1\n00:00:01,000 --> 00:00:02,000\n".data).2.length = 1 := by decide

/-
Reconstructor: `reconstruct_srt_from_translations` (utils.py lines
426-499).  Python list indexing `translated_texts[text_index]` accepts
negative indices down to `-len` and raises `IndexError` below that;
the raise is modelled as `Except.error ()`.
-/

instance {α β : Type} [DecidableEq α] [DecidableEq β] : DecidableEq (Except α β) := fun a b =>
  match a, b with
  | .error x, .error y =>
    if h : x = y then isTrue (by rw [h]) else isFalse (fun k => by cases k; exact h rfl)
  | .ok x, .ok y =>
    if h : x = y then isTrue (by rw [h]) else isFalse (fun k => by cases k; exact h rfl)
  | .error _, .ok _ => isFalse (fun k => by cases k)
  | .ok _, .error _ => isFalse (fun k => by cases k)

def pyGet (xs : List Str) (i : Int) : Except Unit Str :=
  if 0 ≤ i then
    match xs.get? i.toNat with
    | some v => Except.ok v
    | none => Except.error ()
  else
    let j : Int := (xs.length : Int) + i
    if 0 ≤ j then Except.ok (xs.getD j.toNat []) else Except.error ()

-- Python `s.replace(old, new)`: every non-overlapping occurrence,
-- leftmost first.  The `old = ""` case follows Python's insert-between
-- semantics (never reached by the source, which guards on non-empty).
def strReplaceF : Nat → Str → Str → Str → Str
  | 0, _, _, _ => []
  | _ + 1, [], _, _ => []
  | n + 1, c :: cs, old, new =>
    if hasPre old (c :: cs) then new ++ strReplaceF n ((c :: cs).drop old.length) old new
    else c :: strReplaceF n cs old new

def strReplace (s old new : Str) : Str :=
  if old = [] then new ++ s.foldr (fun c acc => c :: (new ++ acc)) []
  else strReplaceF s.length s old new

-- `<tag[^>]*>` case-insensitive, `lit` given lowercase such as "<font".
def pOpenTagCI (lit : Str) (s : Str) : Option Str :=
  if lowerS (s.take lit.length) = lit then
    match (s.drop lit.length).findIdx? (fun x => x = '>') with
    | some j => some ((s.drop lit.length).drop (j + 1))
    | none => none
  else none

-- Literal, case-insensitive (`lit` given lowercase).
def pLitCI (lit : Str) (s : Str) : Option Str :=
  if lowerS (s.take lit.length) = lit then some (s.drop lit.length) else none

-- Greedy `(?:\{[^}]*\})*`: consume maximal run of complete brace units.
def pBracesStarF : Nat → Str → Str
  | 0, s => s
  | n + 1, s =>
    match s with
    | c :: cs =>
      if c = braceL then
        match cs.findIdx? (fun x => x = braceR) with
        | some j => pBracesStarF n (cs.drop (j + 1))
        | none => s
      else s
    | [] => s

def pBracesStar (s : Str) : Str := pBracesStarF s.length s

-- Rests after consuming 0, 1, 2, … complete brace units.
def braceUnitsF : Nat → Str → List Str
  | 0, s => [s]
  | n + 1, s =>
    match s with
    | c :: cs =>
      if c = braceL then
        match cs.findIdx? (fun x => x = braceR) with
        | some j => s :: braceUnitsF n (cs.drop (j + 1))
        | none => [s]
      else [s]
    | [] => [s]

-- Lazy `(.*?)` scan with DOTALL: successive middle lengths until the
-- suffix matcher (returning its consumed length) succeeds.
def lazyFindF (g3At : Str → Option Nat) : Nat → Str → Option (Nat × Nat)
  | n, s =>
    match g3At s with
    | some L => some (0, L)
    | none =>
      match n, s with
      | m + 1, _ :: cs =>
        match lazyFindF g3At m cs with
        | some (k, L) => some (k + 1, L)
        | none => none
      | _, _ => none

/-
`complex_pattern` (line 458):
`(<font[^>]*><b[^>]*>(?:\{[^}]*\})*(?:<font[^>]*>)?)(.*?)((?:</font>)?(?:\{[^}]*\})*</b></font>)`
with DOTALL and IGNORECASE.  Backtracking preference: maximal brace
run first, then with the optional font tag before without, and for
group 3 with the optional `</font>` before without; the lazy middle
expands last.  Only group 1 and group 3 are used by the caller.
-/
def g3CxAt (p : Str) : Option Nat :=
  match pLitCI "</font>".data p with
  | some r =>
    match pLitCI "</b></font>".data (pBracesStar r) with
    | some r3 => some (p.length - r3.length)
    | none =>
      match pLitCI "</b></font>".data (pBracesStar p) with
      | some r3 => some (p.length - r3.length)
      | none => none
  | none =>
    match pLitCI "</b></font>".data (pBracesStar p) with
    | some r3 => some (p.length - r3.length)
    | none => none

def group1AltsCx (s : Str) : List Str :=
  match pOpenTagCI "<font".data s with
  | none => []
  | some r1 =>
    match pOpenTagCI "<b".data r1 with
    | none => []
    | some r2 =>
      (braceUnitsF r2.length r2).reverse.flatMap
        (fun u =>
          match pOpenTagCI "<font".data u with
          | some v => [v, u]
          | none => [u])

def complexAt (s : Str) : Option (Str × Str) :=
  (group1AltsCx s).findSome?
    (fun u =>
      match lazyFindF g3CxAt u.length u with
      | some (m, L) => some (s.take (s.length - u.length), (u.drop m).take L)
      | none => none)

def complexSearchF : Nat → Str → Option (Str × Str)
  | n, s =>
    match complexAt s with
    | some r => some r
    | none =>
      match n, s with
      | m + 1, _ :: cs => complexSearchF m cs
      | _, _ => none

def complexSearch (s : Str) : Option (Str × Str) := complexSearchF s.length s

/-
`simple_complex_pattern` (line 466):
`(<font[^>]*><b[^>]*>(?:\{[^}]*\})*)(.*?)((?:\{[^}]*\})*</b></font>)`.
-/
def g3SCxAt (p : Str) : Option Nat :=
  match pLitCI "</b></font>".data (pBracesStar p) with
  | some r3 => some (p.length - r3.length)
  | none => none

def group1AltsSCx (s : Str) : List Str :=
  match pOpenTagCI "<font".data s with
  | none => []
  | some r1 =>
    match pOpenTagCI "<b".data r1 with
    | none => []
    | some r2 => (braceUnitsF r2.length r2).reverse

def simpleComplexAt (s : Str) : Option (Str × Str) :=
  (group1AltsSCx s).findSome?
    (fun u =>
      match lazyFindF g3SCxAt u.length u with
      | some (m, L) => some (s.take (s.length - u.length), (u.drop m).take L)
      | none => none)

def simpleComplexSearchF : Nat → Str → Option (Str × Str)
  | n, s =>
    match simpleComplexAt s with
    | some r => some r
    | none =>
      match n, s with
      | m + 1, _ :: cs => simpleComplexSearchF m cs
      | _, _ => none

def simpleComplexSearch (s : Str) : Option (Str × Str) := simpleComplexSearchF s.length s

/-
`simple_font_pattern` (line 490): `(<font[^>]*>)(.*?)(</font>)`, used
with `re.sub(..., count=1)`, so text before and after the single
leftmost match is kept.  Returns (text before match, group 1, middle,
group 3 text, text after match).
-/
def fontCloseAt (p : Str) : Option Nat :=
  match pLitCI "</font>".data p with
  | some r => some (p.length - r.length)
  | none => none

def simpleFontSearchF : Nat → Str → Option (Str × Str × Str × Str × Str)
  | n, s =>
    match
      (match pOpenTagCI "<font".data s with
       | some r =>
         match lazyFindF fontCloseAt r.length r with
         | some (m, L) =>
           some (s.take (s.length - r.length), r.take m, (r.drop m).take L, (r.drop m).drop L)
         | none => none
       | none => none) with
    | some (g1, mid, g3, rest) => some ([], g1, mid, g3, rest)
    | none =>
      match n, s with
      | m + 1, c :: cs =>
        match simpleFontSearchF m cs with
        | some (pre, g1, mid, g3, rest) => some (c :: pre, g1, mid, g3, rest)
        | none => none
      | _, _ => none

def simpleFontSearch (s : Str) : Option (Str × Str × Str × Str × Str) :=
  simpleFontSearchF s.length s

-- `replace_font_content` (lines 477-488).
def replaceFontContent (translated g1 mid g3 : Str) : Str :=
  if '<' ∈ mid then
    let cm := strip (stripBraces (stripTags mid))
    if cm ≠ [] then g1 ++ strReplace mid cm translated ++ g3
    else g1 ++ translated ++ g3
  else g1 ++ translated ++ g3

-- The `'<font' in original_content` branch body (lines 447-493),
-- producing `new_content`.
def rebuildContent (translated content : Str) : Str :=
  let origText := strip (collapseWs (stripBraces (stripTags content)))
  if origText = [] then content
  else if hasSub "<b>".data content then
    match complexSearch content with
    | some (pre, suf) => pre ++ translated ++ suf
    | none =>
      match simpleComplexSearch content with
      | some (pre, suf) => pre ++ translated ++ suf
      | none => strReplace content origText translated
  else
    match simpleFontSearch content with
    | some (pre, g1, mid, g3, rest) => pre ++ replaceFontContent translated g1 mid g3 ++ rest
    | none => content

def emitBlock (ts : List Str) (b : SubBlock) : Except Unit Str :=
  if b.has_text = false then Except.ok b.original_block
  else
    match b.text_index with
    | none => Except.ok b.original_block
    | some i =>
      if (ts.length : Int) ≤ i then Except.ok b.original_block
      else do
        let t ← pyGet ts i
        let head := b.block_number ++ '\n' :: b.timestamp ++ ['\n']
        if hasSub "<font".data b.content then Except.ok (head ++ rebuildContent t b.content)
        else Except.ok (head ++ t)

-- The result-accumulation loop; a raised `IndexError` aborts it.
def emitAll (ts : List Str) : List SubBlock → Except Unit (List Str)
  | [] => Except.ok []
  | b :: bs => do
    let x ← emitBlock ts b
    let xs ← emitAll ts bs
    Except.ok (x :: xs)

def reconstruct_srt_from_translations (ts : List Str) (smap : List SubBlock) :
    Except Unit Str := do
  let bs ← emitAll ts smap
  return joinBlank bs

example :
    (let d := "1\n00:00:01,000 --> 00:00:02,000\nHello world".data
     let p := extract_text_from_srt d
     reconstruct_srt_from_translations p.1 p.2) =
      Except.ok "1\n00:00:01,000 --> 00:00:02,000\nHello world".data := by decide

example :
    (let d := "1\n00:00:01,000 --> 00:00:02,000\nHi <font color=red>John</font>".data
     let p := extract_text_from_srt d
     reconstruct_srt_from_translations p.1 p.2) =
      Except.ok "1\n00:00:01,000 --> 00:00:02,000\nHi <font color=red>John</font>".data := by
  decide

example :
    reconstruct_srt_from_translations ["x".data]
      [⟨"1".data, "t".data, "c".data, some (-5), true, none, "orig".data⟩] =
      Except.error () := by decide

/-
Proper-noun guard: `add_quotes_to_proper_nouns` (lines 676-700) and
`remove_added_quotes` (lines 702-720).
-/

-- `[A-Z][a-zA-Z]+`: an upper-case letter then a maximal non-empty
-- letter run; returns the consumed word and the rest.
def pWord (s : Str) : Option (Str × Str) :=
  match s with
  | [] => none
  | c :: cs =>
    if isUpperC c then
      let r := cs.takeWhile (fun x => isAlphaC x)
      if 1 ≤ r.length then some (c :: r, cs.dropWhile (fun x => isAlphaC x)) else none
    else none

-- `\s+[A-Z][a-zA-Z]+`, returning (consumed segment, rest).
def pExt (s : Str) : Option (Str × Str) :=
  let w := s.takeWhile (fun x => isWsC x)
  if 1 ≤ w.length then
    match pWord (s.dropWhile (fun x => isWsC x)) with
    | some (v, rest) => some (w ++ v, rest)
    | none => none
  else none

-- Trailing `\b` after a letter: next character is not a word character.
def bdryOk (s : Str) : Bool :=
  match s with
  | [] => true
  | c :: _ => ¬ isWordC c

/-
`\b[A-Z][a-zA-Z]+(?:\s+[A-Z][a-zA-Z]+){0,2}\b` at the head of `s`: the
repeat is greedy; when the final boundary fails after `k ≥ 1`
extensions the engine falls back to `k - 1` extensions, whose end is
followed by whitespace, so the boundary then holds (no split inside a
letter run can satisfy `\b`).  The leading `\b` is the caller's check.
Returns (matched span, rest).
-/
def pnMatch (s : Str) : Option (Str × Str) :=
  match pWord s with
  | none => none
  | some (w0, r0) =>
    match pExt r0 with
    | none => if bdryOk r0 then some (w0, r0) else none
    | some (e1, r1) =>
      match pExt r1 with
      | none => if bdryOk r1 then some (w0 ++ e1, r1) else some (w0, r0)
      | some (e2, r2) =>
        if bdryOk r2 then some (w0 ++ e1 ++ e2, r2) else some (w0 ++ e1, r1)

-- `re.sub` scan for the proper-noun pattern; the replacement callback
-- counts quote characters in the ORIGINAL text before the match start
-- (odd count: span left as is), else wraps in quotes and records the
-- start position.
def addQuotesF (orig : Str) : Nat → Str → Nat → Bool → Str × List Nat
  | 0, _, _, _ => ([], [])
  | _ + 1, [], _, _ => ([], [])
  | n + 1, c :: cs, pos, prevWord =>
    match (if prevWord then none else pnMatch (c :: cs)) with
    | some (m, rest) =>
      let out := addQuotesF orig n rest (pos + m.length) true
      if ((orig.take pos).count quoteC) % 2 = 1 then (m ++ out.1, out.2)
      else (quoteC :: (m ++ quoteC :: out.1), pos :: out.2)
    | none =>
      let out := addQuotesF orig n cs (pos + 1) (isWordC c)
      (c :: out.1, out.2)

def add_quotes_to_proper_nouns (text : Str) : Str × List Nat :=
  addQuotesF text text.length text 0 false

-- `^[A-Z][a-zA-Z]+(?:\s+[A-Z][a-zA-Z]+)*$` (line 710); `$` also
-- matches just before one trailing newline.
def shapeEndOk (s : Str) : Bool := s = [] || s = ['\n']

def shapeTailF : Nat → Str → Bool
  | n, s =>
    if shapeEndOk s then true
    else
      match pExt s with
      | some (_, rest) =>
        match n with
        | m + 1 => shapeTailF m rest
        | 0 => false
      | none => false

def shapeRegexOk (s : Str) : Bool :=
  match pWord s with
  | some (_, rest) => shapeTailF s.length rest
  | none => false

-- Python `str.split()` (whitespace runs, no empties).
def pySplitWsF : Nat → Str → List Str
  | 0, _ => []
  | n + 1, s =>
    let t := s.dropWhile (fun c => isWsC c)
    match t with
    | [] => []
    | _ =>
      let w := t.takeWhile (fun c => ¬ isWsC c)
      w :: pySplitWsF n (t.drop w.length)

def pySplitWs (s : Str) : List Str := pySplitWsF s.length s

-- Lines 711-713: every whitespace-separated word is alphabetic with an
-- upper-case first letter.
def wordCheckOk (content : Str) : Bool :=
  (pySplitWs content).all
    (fun w =>
      (match w with
       | c :: _ => isUpperC c
       | [] => false) && w.all (fun c => isAlphaC c))

-- `re.sub(r'"([^"]+)"', should_remove_quotes, text)`: a quote pairs
-- with the next quote (at least one character between them); an
-- immediately adjacent pair is no match and the engine advances one
-- character.  The `added_positions` argument is accepted and ignored,
-- exactly as in the source.
def removeQuotesF : Nat → Str → Str
  | 0, _ => []
  | _ + 1, [] => []
  | n + 1, c :: cs =>
    if c = quoteC then
      match cs.findIdx? (fun x => x = quoteC) with
      | some j =>
        if j = 0 then c :: removeQuotesF n cs
        else
          let content := cs.take j
          if shapeRegexOk content && wordCheckOk content then
            content ++ removeQuotesF n (cs.drop (j + 1))
          else (c :: content ++ [quoteC]) ++ removeQuotesF n (cs.drop (j + 1))
      | none => c :: removeQuotesF n cs
    else c :: removeQuotesF n cs

def remove_added_quotes (text : Str) (_addedPositions : List Nat) : Str :=
  removeQuotesF text.length text

example :
    remove_added_quotes (add_quotes_to_proper_nouns "Hello John Smith said hi".data).1
      (add_quotes_to_proper_nouns "Hello John Smith said hi".data).2 =
      "Hello John Smith said hi".data := by decide

example :
    (add_quotes_to_proper_nouns "Hello John".data).1 =
      [quoteC] ++ "Hello John".data ++ [quoteC] := by decide

/-
Fragment chunker: `split_srt_into_chunks` (lines 74-112).  The token
counter (`count_tokens`, an external tokenizer with a length-based
fallback) is an injected `cost` parameter, and the subtitle list the
source derives from the raw text (`re.findall` with a subtitle pattern,
falling back to a blank-line split) is likewise taken as the `subs`
parameter: the loop below is the verbatim accumulation loop, and the
verified properties hold for every subtitle list.  Chunk groups are
kept as fragment lists; the source's string chunks are the group
rendered with the `"\n\n"` separator and stripped, recovered by
`split_srt_into_chunks` itself.
-/

def chunksGo (cost : Str → Nat) (eff : Int) :
    List Str → List (List Str) → List Str → Nat → List (List Str)
  | [], acc, cur, _ => if cur ≠ [] then acc ++ [cur] else acc
  | sub :: rest, acc, cur, curT =>
    let t := cost sub
    if (t : Int) > eff then
      chunksGo cost eff rest ((if cur ≠ [] then acc ++ [cur] else acc) ++ [[sub]]) [] 0
    else if (curT : Int) + (t : Int) > eff then
      chunksGo cost eff rest (if cur ≠ [] then acc ++ [cur] else acc) [sub] t
    else chunksGo cost eff rest acc (cur ++ [sub]) (curT + t)

def split_srt_into_chunksG (cost : Str → Nat) (maxChunkTokens : Int) (subs : List Str) :
    List (List Str) :=
  chunksGo cost (maxChunkTokens - 200) subs [] [] 0

def split_srt_into_chunks (cost : Str → Nat) (maxChunkTokens : Int) (subs : List Str) :
    List Str :=
  (split_srt_into_chunksG cost maxChunkTokens subs).map (fun g => strip (joinBlank g))

/-
Evolutionary response cleaning: `extract_translations_from_evolutionary_response`
(lines 848-877).
-/

def evoSkips : List Str :=
  ["never translate".data, "do not translate".data, "person names".data,
   "place names".data, "technique/ability".data, "capital letter".data,
   "translate only".data, "texts:".data, "translations:".data]

-- `re.sub(r'^\d+[\.\)]\s*', '', line)`: strip a leading ordinal.
def stripOrdinalEvo (line : Str) : Str :=
  let d := line.takeWhile (fun c => isDigitC c)
  if 1 ≤ d.length then
    match line.drop d.length with
    | c :: rest => if c = '.' || c = ')' then rest.dropWhile (fun x => isWsC x) else line
    | [] => line
  else line

def evoCandidates (response : Str) : List Str :=
  let lines := splitOnC '\n' response
  let clean := lines.foldl
    (fun acc l =>
      let l := strip l
      if l ≠ [] ∧ ¬ (evoSkips.any (fun p => hasSub p (lowerS l))) then acc ++ [l] else acc)
    []
  clean.foldl
    (fun acc l =>
      if l ≠ [] then
        let l2 := stripOrdinalEvo l
        if l2 ≠ [] then acc ++ [l2] else acc
      else acc)
    []

-- The padding `while` loop (lines 870-875); the `else` branch that
-- would append an empty string is unreachable because the loop guard
-- gives `idx < len(original_texts)`, and `getD` matches the reachable
-- branch.
def padGoF : Nat → List Str → List Str → List Str
  | 0, _, tr => tr
  | n + 1, orig, tr =>
    if tr.length < orig.length then padGoF n orig (tr ++ [orig.getD tr.length []]) else tr

def extract_translations_from_evolutionary_response (response : Str) (orig : List Str) :
    List Str :=
  (padGoF orig.length orig (evoCandidates response)).take orig.length

/-
Structured-pipeline translation: `translate_text_chunk_with_evolutionary_config`
(lines 801-846) and `translate_texts_with_evolutionary_config` (lines
780-799).  The network call is the oracle `backend`, mapping the chunk
to either a raised exception (`Except.error`) or a `(status_code,
response_field)` pair; the prompt text does not influence any verified
behaviour and is not modelled.
-/

def translate_text_chunk_ec (backend : List Str → Except Unit (Int × Str))
    (texts : List Str) : List Str :=
  match backend texts with
  | Except.ok (status, body) =>
    if status = 200 then extract_translations_from_evolutionary_response (strip body) texts
    else texts
  | Except.error _ => texts

-- `[texts[i:i + chunk_size] for i in range(0, len(texts), chunk_size)]`
-- with the hard-coded `chunk_size = 10` (line 783).
def evoChunksF : Nat → List Str → List (List Str)
  | 0, _ => []
  | _ + 1, [] => []
  | n + 1, x :: xs => ((x :: xs).take 10) :: evoChunksF n ((x :: xs).drop 10)

def evoChunks (texts : List Str) : List (List Str) := evoChunksF texts.length texts

def translate_texts_with_evolutionary_config (backend : List Str → Except Unit (Int × Str))
    (texts : List Str) : List Str :=
  (evoChunks texts).foldl (fun acc c => acc ++ translate_text_chunk_ec backend c) []

/-
Single-text path: `translate_simple_text_with_evolutionary_config`
(lines 722-778) with its one network call as an oracle, and the
full-pipeline entry point `translate_srt_optimized` (lines 650-674).
-/

-- `re.sub(r'^(?:tradução|translation):\s*', '', s, flags=IGNORECASE)`.
def stripLeadTran (s : Str) : Str :=
  match
    (match pLitCI "tradução".data s with
     | some r =>
       (match r with
        | c :: rest => if c = ':' then some (rest.dropWhile (fun x => isWsC x)) else none
        | [] => none)
     | none => none) with
  | some r => r
  | none =>
    match pLitCI "translation".data s with
    | some r =>
      (match r with
       | c :: rest => if c = ':' then rest.dropWhile (fun x => isWsC x) else s
       | [] => s)
    | none => s

def translate_simple_text_ec (oracle : Except Unit (Int × Str)) (text : Str) : Str :=
  let pq := add_quotes_to_proper_nouns text
  match oracle with
  | Except.ok (status, body) =>
    if status = 200 then
      let translated := strip body
      if translated ≠ [] then remove_added_quotes (strip (stripLeadTran translated)) pq.2
      else text
    else text
  | Except.error _ => text

-- `re.search(r'\d+\n\d{2}:\d{2}:\d{2},\d{3}\s*-->\s*\d{2}:\d{2}:\d{2},\d{3}', s)`
-- (line 654).
def anySuffix (p : Str → Bool) : Str → Bool
  | [] => p []
  | c :: cs => p (c :: cs) || anySuffix p cs

def srtShapeAt (s : Str) : Bool :=
  let d := s.takeWhile (fun c => isDigitC c)
  1 ≤ d.length &&
    (match s.drop d.length with
     | c :: rest => c = '\n' && tsMatch rest
     | [] => false)

def hasSrtShape (s : Str) : Bool := anySuffix srtShapeAt s

def translate_srt_optimized (backend : List Str → Except Unit (Int × Str))
    (simpleOracle : Except Unit (Int × Str)) (s : Str) : Except Unit Str :=
  if hasSrtShape s then
    let p := extract_text_from_srt s
    if p.1 = [] then Except.ok s
    else reconstruct_srt_from_translations
      (translate_texts_with_evolutionary_config backend p.1) p.2
  else Except.ok (translate_simple_text_ec simpleOracle s)

example :
    extract_translations_from_evolutionary_response "1. Ola\n2. Mundo".data
      ["Hi".data, "World".data, "Third".data] =
      ["Ola".data, "Mundo".data, "Third".data] := by decide

example :
    evoChunks (List.replicate 23 "x".data) =
      [List.replicate 10 "x".data, List.replicate 10 "x".data,
       List.replicate 3 "x".data] := by decide

example :
    translate_srt_optimized (fun _ => Except.error ()) (Except.error ())
      "1\n00:00:01,000 --> 00:00:02,000\n".data =
      Except.ok "1\n00:00:01,000 --> 00:00:02,000\n".data := by decide

/-
Backend invoker, full-SRT path: `translate_chunk_with_ollama` (lines
170-240).  The network is an oracle from the attempt index to either a
raised exception or a `(status_code, response_field)` pair; the
returned trace lists the `time.sleep` delays taken between failed
attempts.  Response cleaning embeds lines 199-229.
-/

-- A line whose strip is all digits with positive value (lines 206-210).
def isPosDigitLine (l : Str) : Bool :=
  let t := strip l
  t ≠ [] && t.all (fun c => isDigitC c) && t.any (fun c => c ≠ '0')

-- `re.sub(pat, '', s, flags=DOTALL|IGNORECASE)` for a pattern of shape
-- `<head>.*$`: everything from the leftmost head occurrence to the end
-- of the string is removed.
def cutAtF (p : Str → Bool) : Nat → Str → Str
  | 0, s => s
  | _ + 1, [] => []
  | n + 1, c :: cs => if p (c :: cs) then [] else c :: cutAtF p n cs

-- Heads of the seven `cleanup_patterns` (lines 216-224); the fifth is
-- the fourth again under IGNORECASE.
def cut1At (s : Str) : Bool := (pLitCI "\n---end srt---".data s).isSome

def cut2At (s : Str) : Bool := (pLitCI "\ntranslated srt output:".data s).isSome

-- `\n\*\*.*\*\*.*$`.
def cut3At (s : Str) : Bool := hasPre "\n**".data s && hasSub "**".data (s.drop 3)

def cut4At (s : Str) : Bool := (pLitCI "\nnote:".data s).isSome

def cut5At (s : Str) : Bool := (pLitCI "\nnote:".data s).isSome

def pmWs1 : Str → Option Str
  | [] => none
  | c :: cs => if isWsC c then some ((c :: cs).dropWhile (fun x => isWsC x)) else none

def pmD1 (s : Str) : Option Str :=
  let d := s.takeWhile (fun c => isDigitC c)
  if 1 ≤ d.length then some (s.drop d.length) else none

-- `\n\d+\.\s+[A-Z][^:]*:.*$` under IGNORECASE: `[A-Z]` matches any
-- letter and `[^:]*:` succeeds exactly when a colon occurs later.
def cut6At (s : Str) : Bool :=
  (do
    let r ← pLit '\n' s
    let r ← pmD1 r
    let r ← pLit '.' r
    let r ← pmWs1 r
    match r with
    | c :: rest => if isAlphaC c then (if ':' ∈ rest then some () else none) else none
    | [] => none).isSome

-- `\n[A-Z\s]+:.*$` under IGNORECASE: a non-empty letter/whitespace run
-- after the newline, immediately followed by a colon (the class cannot
-- contain the colon, so only the maximal run can be followed by one).
def cut7At (s : Str) : Bool :=
  match s with
  | c :: cs =>
    if c = '\n' then
      let run := cs.takeWhile (fun x => isAlphaC x || isWsC x)
      1 ≤ run.length &&
        (match cs.drop run.length with
         | d :: _ => d = ':'
         | [] => false)
    else false
  | [] => false

def chunkCuts : List (Str → Bool) := [cut1At, cut2At, cut3At, cut4At, cut5At, cut6At, cut7At]

def cleanChunkResponse (body : Str) : Str :=
  let translated := strip body
  let lines := splitOnC '\n' translated
  let startIdx := (lines.findIdx? isPosDigitLine).getD 0
  let translated := if 0 < startIdx then joinNl (lines.drop startIdx) else translated
  let translated := chunkCuts.foldl (fun t p => cutAtF p t.length t) translated
  strip translated

abbrev AttemptOracle := Nat → Except Unit (Int × Str)

-- `min(base_delay * (2 ** attempt), max_delay)` with `base_delay = 1`,
-- `max_delay = 10`.
def retryDelay (attempt : Nat) : Int := min (1 * 2 ^ attempt) 10

def chunkLoopGo (oracle : AttemptOracle) (text : Str) : Nat → Nat → Str × List Int
  | 0, _ => (text, [])
  | r + 1, a =>
    let failCont :=
      if a < 2 then
        let next := chunkLoopGo oracle text r (a + 1)
        (next.1, retryDelay a :: next.2)
      else (text, [])
    match oracle a with
    | Except.ok (status, body) =>
      if status = 200 then (cleanChunkResponse body, []) else failCont
    | Except.error _ => failCont

-- `max_retries = 3`; after the loop the original text is returned
-- (line 240).
def translate_chunk_with_ollama (oracle : AttemptOracle) (text : Str) : Str × List Int :=
  chunkLoopGo oracle text 3 0

example :
    translate_chunk_with_ollama (fun _ => Except.error ()) "1\n00:00:01,000\nHi".data =
      ("1\n00:00:01,000\nHi".data, [1, 2]) := by decide

example :
    translate_chunk_with_ollama
      (fun a => if a = 2 then Except.ok (200, "ok text\n1\nHello".data) else Except.error ())
      "orig".data = ("1\nHello".data, [1, 2]) := by decide

/-
Backend invoker, text-only path: `translate_text_only_with_ollama`
(lines 535-648).  The 25-entry `skip_patterns` list (lines 584-620) is
embedded pattern by pattern; `re.search` without `^` is a match at any
suffix.  Trailing optional pieces such as `:?` or `s?` never constrain
a search and are kept only where they are interior; the `$` anchor also
accepts one trailing newline.
-/

def pmC (c : Char) : Str → Option Str
  | [] => none
  | x :: xs => if lowerC x = c then some xs else none

def pmOptC (c : Char) : Str → Option Str
  | [] => some []
  | x :: xs => if lowerC x = c then some xs else some (x :: xs)

-- Words joined by `\s+`, case-insensitive, at the head of `s`.
def wseqAt : List Str → Str → Bool
  | [], _ => true
  | [w], s => (pLitCI w s).isSome
  | w :: ws, s =>
    match pLitCI w s with
    | some r =>
      match pmWs1 r with
      | some r2 => wseqAt ws r2
      | none => false
    | none => false

def searchWseq (ws : List Str) (s : Str) : Bool := anySuffix (wseqAt ws) s

-- `^(?:as\s+)?instruções?\s+importantes?:?`.
def skip01 (s : Str) : Bool :=
  let s1 :=
    match (do let r ← pLitCI "as".data s; pmWs1 r) with
    | some r => r
    | none => s
  (do
    let r ← pLitCI "instruçõe".data s1
    let r ← pmOptC 's' r
    let r ← pmWs1 r
    let r ← pLitCI "importante".data r
    let r ← pmOptC 's' r
    let _ ← pmOptC ':' r
    pure ()).isSome

-- `^\d+\.\s*(?:traduza|devolva|mantenha|preserve|use|não\s+inclua)`.
def skip02 (s : Str) : Bool :=
  (do
    let r ← pmD1 s
    let r ← pmC '.' r
    let r := r.dropWhile (fun x => isWsC x)
    if (pLitCI "traduza".data r).isSome || (pLitCI "devolva".data r).isSome ||
        (pLitCI "mantenha".data r).isSome || (pLitCI "preserve".data r).isSome ||
        (pLitCI "use".data r).isSome ||
        (do let q ← pLitCI "não".data r; let q ← pmWs1 q; pLitCI "inclua".data q).isSome then
      pure ()
    else none).isSome

-- `^\d+\.\s*(?:translate|return|keep|preserve|use|do\s+not)`.
def skip03 (s : Str) : Bool :=
  (do
    let r ← pmD1 s
    let r ← pmC '.' r
    let r := r.dropWhile (fun x => isWsC x)
    if (pLitCI "translate".data r).isSome || (pLitCI "return".data r).isSome ||
        (pLitCI "keep".data r).isSome || (pLitCI "preserve".data r).isSome ||
        (pLitCI "use".data r).isSome ||
        (do let q ← pLitCI "do".data r; let q ← pmWs1 q; pLitCI "not".data q).isSome then
      pure ()
    else none).isSome

-- `important\s+instruções?:?`.
def skip04 (s : Str) : Bool :=
  anySuffix
    (fun t =>
      (do
        let r ← pLitCI "important".data t
        let r ← pmWs1 r
        let r ← pLitCI "instruçõe".data r
        let r ← pmOptC 's' r
        let _ ← pmOptC ':' r
        pure ()).isSome)
    s

def skip05 (s : Str) : Bool := searchWseq ["retorne".data, "apenas".data] s

def skip06 (s : Str) : Bool := searchWseq ["return".data, "only".data] s

def skip07 (s : Str) : Bool := searchWseq ["uma".data, "por".data, "linha".data] s

def skip08 (s : Str) : Bool := searchWseq ["one".data, "per".data, "line".data] s

-- `textos?\s+de\s+entrada`.
def skip09 (s : Str) : Bool :=
  anySuffix
    (fun t =>
      (do
        let r ← pLitCI "texto".data t
        let r ← pmOptC 's' r
        let r ← pmWs1 r
        let r ← pLitCI "de".data r
        let r ← pmWs1 r
        let _ ← pLitCI "entrada".data r
        pure ()).isSome)
    s

-- `input\s+texts?`.
def skip10 (s : Str) : Bool := searchWseq ["input".data, "text".data] s

def skip11 (s : Str) : Bool :=
  searchWseq ["same".data, "number".data, "of".data, "lines".data] s

def skip12 (s : Str) : Bool :=
  searchWseq ["mesmo".data, "número".data, "de".data, "linhas".data] s

-- `^\d+\.$`.
def skip13 (s : Str) : Bool :=
  (do
    let r ← pmD1 s
    let r ← pmC '.' r
    if shapeEndOk r then pure () else none).isSome

-- `^\d+\s*$`.
def skip14 (s : Str) : Bool :=
  (do
    let r ← pmD1 s
    if shapeEndOk (r.dropWhile (fun x => isWsC x)) then pure () else none).isSome

-- `^(?:input\s+)?texts?:?\s*$`.
def skip15 (s : Str) : Bool :=
  let s1 :=
    match (do let r ← pLitCI "input".data s; pmWs1 r) with
    | some r => r
    | none => s
  (do
    let r ← pLitCI "text".data s1
    let r ← pmOptC 's' r
    let r ← pmOptC ':' r
    if shapeEndOk (r.dropWhile (fun x => isWsC x)) then pure () else none).isSome

-- `^translations?:?\s*$`.
def skip16 (s : Str) : Bool :=
  (do
    let r ← pLitCI "translation".data s
    let r ← pmOptC 's' r
    let r ← pmOptC ':' r
    if shapeEndOk (r.dropWhile (fun x => isWsC x)) then pure () else none).isSome

-- `^tradução|traduções:?\s*$`: the alternation splits the whole
-- pattern, so this is an anchored first literal OR a search for the
-- second alternative ending at `$`.
def skip17 (s : Str) : Bool :=
  (pLitCI "tradução".data s).isSome ||
    anySuffix
      (fun t =>
        (do
          let r ← pLitCI "traduções".data t
          let r ← pmOptC ':' r
          if shapeEndOk (r.dropWhile (fun x => isWsC x)) then pure () else none).isSome)
      s

-- `important\s+instructions?`.
def skip18 (s : Str) : Bool :=
  anySuffix
    (fun t =>
      (do
        let r ← pLitCI "important".data t
        let r ← pmWs1 r
        let r ← pLitCI "instruction".data r
        let _ ← pmOptC 's' r
        pure ()).isSome)
    s

def skip19 (s : Str) : Bool := searchWseq ["texto".data, "numerado".data] s

def skip20 (s : Str) : Bool := searchWseq ["sound".data, "effects".data] s

-- `efeitos?\s+sonoros?`.
def skip21 (s : Str) : Bool :=
  anySuffix
    (fun t =>
      (do
        let r ← pLitCI "efeito".data t
        let r ← pmOptC 's' r
        let r ← pmWs1 r
        let r ← pLitCI "sonoro".data r
        let _ ← pmOptC 's' r
        pure ()).isSome)
    s

-- `natural.*express` (no DOTALL here: `.` excludes the newline).
def pmDotStarThenF (lit : Str) : Nat → Str → Bool
  | n, s =>
    if (pLitCI lit s).isSome then true
    else
      match n, s with
      | m + 1, c :: cs => if c = '\n' then false else pmDotStarThenF lit m cs
      | _, _ => false

def skip22 (s : Str) : Bool :=
  anySuffix
    (fun t =>
      match pLitCI "natural".data t with
      | some r => pmDotStarThenF "express".data r.length r
      | none => false)
    s

def skip23 (s : Str) : Bool := searchWseq ["original".data, "text".data] s

def skip24 (s : Str) : Bool := searchWseq ["texto".data, "original".data] s

def skip25 (s : Str) : Bool := anySuffix (fun t => (pLitCI "explanation".data t).isSome) s

def skip26 (s : Str) : Bool := anySuffix (fun t => (pLitCI "explicaçõe".data t).isSome) s

def skip27 (s : Str) : Bool := anySuffix (fun t => (pLitCI "numbering".data t).isSome) s

def skip28 (s : Str) : Bool := anySuffix (fun t => (pLitCI "numeração".data t).isSome) s

def skip29 (s : Str) : Bool := searchWseq ["important".data, "instrução".data] s

-- `textos\s+de\s+entrada:?`.
def skip30 (s : Str) : Bool := searchWseq ["textos".data, "de".data, "entrada".data] s

-- `retorne?\s+apenas\s+as\s+traduções`.
def skip31 (s : Str) : Bool :=
  anySuffix
    (fun t =>
      (do
        let r ← pLitCI "retorn".data t
        let r ← pmOptC 'e' r
        let r ← pmWs1 r
        let r ← pLitCI "apenas".data r
        let r ← pmWs1 r
        let r ← pLitCI "as".data r
        let r ← pmWs1 r
        let _ ← pLitCI "traduções".data r
        pure ()).isSome)
    s

def skip32 (s : Str) : Bool :=
  searchWseq ["return".data, "only".data, "the".data, "translations".data] s

def skip33 (s : Str) : Bool := searchWseq ["uma".data, "por".data, "linha".data] s

def skip34 (s : Str) : Bool :=
  searchWseq ["mantenha".data, "o".data, "mesmo".data, "número".data] s

def skip35 (s : Str) : Bool :=
  searchWseq ["keep".data, "the".data, "same".data, "number".data] s

def textOnlySkips : List (Str → Bool) :=
  [skip01, skip02, skip03, skip04, skip05, skip06, skip07, skip08, skip09, skip10,
   skip11, skip12, skip13, skip14, skip15, skip16, skip17, skip18, skip19, skip20,
   skip21, skip22, skip23, skip24, skip25, skip26, skip27, skip28, skip29, skip30,
   skip31, skip32, skip33, skip34, skip35]

def shouldSkipLine (l : Str) : Bool := textOnlySkips.any (fun p => p l)

def textOnlyMarkers : List Str := ["TRANSLATION".data, "TRADUÇÃO".data, "RESPOSTA".data]

-- `^\d+\.\s+` guard then strip (lines 627-628).
def stripOrdinalTO (line : Str) : Str :=
  match (do let r ← pmD1 line; let r ← pLit '.' r; pmWs1 r) with
  | some r => r
  | none => line

def cleanTextOnlyResponse (body : Str) (texts : List Str) : List Str :=
  let translated := strip body
  let lines := splitOnC '\n' translated
  let translations := lines.foldl
    (fun acc l =>
      let l := strip l
      if l = [] then acc
      else if textOnlyMarkers.any (fun m => hasSub m (upperS l)) then acc
      else if shouldSkipLine l then acc
      else
        let l2 := stripOrdinalTO l
        if l2 ≠ [] then acc ++ [l2] else acc)
    []
  if translations.length < texts.length then padGoF texts.length texts translations
  else if translations.length > texts.length then translations.take texts.length
  else translations

def textOnlyLoopGo (oracle : AttemptOracle) (texts : List Str) :
    Nat → Nat → Option (List Str) × List Int
  | 0, _ => (none, [])
  | r + 1, a =>
    let failCont :=
      if a < 2 then
        let next := textOnlyLoopGo oracle texts r (a + 1)
        (next.1, retryDelay a :: next.2)
      else (none, [])
    match oracle a with
    | Except.ok (status, body) =>
      if status = 200 then (some (cleanTextOnlyResponse body texts), []) else failCont
    | Except.error _ => failCont

-- The function body has no `return` after the retry loop, so when all
-- three attempts fail it returns Python's implicit `None`, modelled as
-- `none`; the `if not texts: return []` guard at line 537-538 comes
-- first.
def translate_text_only_with_ollama (oracle : AttemptOracle) (texts : List Str) :
    Option (List Str) × List Int :=
  if texts = [] then (some [], []) else textOnlyLoopGo oracle texts 3 0

example :
    translate_text_only_with_ollama (fun _ => Except.error ()) ["Hello world".data] =
      (none, [1, 2]) := by decide

example :
    translate_text_only_with_ollama
      (fun _ => Except.ok (200, "TRANSLATIONS:\n1. Ola mundo\nreturn only the translations".data))
      ["Hello world".data] = (some ["Ola mundo".data], []) := by decide


/-
Supporting lemmas and claim theorems.
-/

lemma padGoF_spec : ∀ (n : Nat) (orig tr : List Str), orig.length ≤ tr.length + n →
    padGoF n orig tr = if tr.length < orig.length then tr ++ orig.drop tr.length else tr := by
  intro n
  induction n with
  | zero =>
    intro orig tr h
    have hlt : ¬ tr.length < orig.length := by omega
    simp [padGoF, hlt]
  | succ n ih =>
    intro orig tr h
    by_cases hlt : tr.length < orig.length
    · have step : padGoF (n + 1) orig tr = padGoF n orig (tr ++ [orig.getD tr.length []]) := by
        rw [padGoF, if_pos hlt]
      rw [step, ih _ _ (by simp; omega), if_pos hlt]
      have hg : orig.getD tr.length [] = orig[tr.length] := List.getD_eq_getElem orig [] hlt
      have hd : List.drop tr.length orig = orig[tr.length] :: List.drop (tr.length + 1) orig :=
        List.drop_eq_getElem_cons hlt
      by_cases h2 : (tr ++ [orig.getD tr.length []]).length < orig.length
      · rw [if_pos h2, hd, hg]
        simp
      · rw [if_neg h2, hd, hg]
        have hz : List.drop (tr.length + 1) orig = [] := by
          apply List.drop_eq_nil_of_le
          simp at h2
          omega
        simp [hz]
    · rw [padGoF, if_neg hlt, if_neg hlt]

/-- Claim C1: the response-cleaning and count-reconciliation step of the
structured pipeline (`extract_translations_from_evolutionary_response`)
always returns exactly one entry per input fragment: the cleaned
candidate lines are truncated to the input count, and every missing
tail position `i` is filled with the original input fragment at that
same index `i` (closed form: candidates truncated to the input length,
followed by the originals from the candidate count onwards — never an
empty string, never a shifted value). -/
theorem claim_c1 (response : Str) (orig : List Str) :
    extract_translations_from_evolutionary_response response orig =
      (evoCandidates response).take orig.length ++
        orig.drop (min (evoCandidates response).length orig.length) ∧
    (extract_translations_from_evolutionary_response response orig).length = orig.length := by
  have key : extract_translations_from_evolutionary_response response orig =
      (evoCandidates response).take orig.length ++
        orig.drop (min (evoCandidates response).length orig.length) := by
    unfold extract_translations_from_evolutionary_response
    rw [padGoF_spec _ _ _ (by omega)]
    by_cases h : (evoCandidates response).length < orig.length
    · rw [if_pos h]
      have hlen : ((evoCandidates response) ++
          orig.drop (evoCandidates response).length).length = orig.length := by
        simp
        omega
      rw [List.take_of_length_le (le_of_eq hlen)]
      rw [List.take_of_length_le (le_of_lt h), Nat.min_eq_left (le_of_lt h)]
    · rw [if_neg h]
      rw [Nat.min_eq_right (by omega), List.drop_eq_nil_of_le (le_refl _), List.append_nil]
  refine ⟨key, ?_⟩
  rw [key]
  simp
  omega

/-- Claim C3: with the network modelled as an always-failing oracle
(transport exception, or non-success status, on every attempt), the
full-SRT invoker `translate_chunk_with_ollama` makes 3 attempts,
sleeps `min(1 * 2^attempt, 10)` between failed attempts (trace
`[1, 2]`), and returns the chunk's original text — but the text-only
invoker `translate_text_only_with_ollama` falls off the end of its
retry loop and returns Python's `None` (modelled `none`) instead of
the original fragments, contradicting the claim and the function's own
declared `List[str]` return type. -/
theorem claim_c3_eval :
    translate_chunk_with_ollama (fun _ => Except.error ()) "Hello world".data =
      ("Hello world".data, [1, 2]) ∧
    translate_chunk_with_ollama (fun _ => Except.ok (503, "resp".data)) "Hello world".data =
      ("Hello world".data, [1, 2]) ∧
    translate_text_only_with_ollama (fun _ => Except.error ()) ["Hello world".data] =
      (none, [1, 2]) ∧
    translate_text_only_with_ollama (fun _ => Except.ok (503, "resp".data))
      ["Hello world".data] = (none, [1, 2]) ∧
    retryDelay 0 = 1 ∧ retryDelay 1 = 2 :=
  ⟨by decide, by decide, by decide, by decide, by decide, by decide⟩

lemma evoChunksF_join : ∀ (n : Nat) (xs : List Str), xs.length ≤ n →
    (evoChunksF n xs).flatten = xs := by
  intro n
  induction n with
  | zero =>
    intro xs h
    have : xs = [] := List.eq_nil_of_length_eq_zero (by omega)
    subst this
    simp [evoChunksF]
  | succ n ih =>
    intro xs h
    match xs with
    | [] => simp [evoChunksF]
    | x :: rest =>
      rw [evoChunksF]
      rw [List.flatten_cons]
      have hlen : (List.drop 10 (x :: rest)).length ≤ n := by
        rw [List.length_drop]
        simp only [List.length_cons] at h ⊢
        omega
      rw [ih _ hlen]
      exact List.take_append_drop 10 (x :: rest)

lemma evoChunksF_mem : ∀ (n : Nat) (xs : List Str) (c : List Str), xs.length ≤ n →
    c ∈ evoChunksF n xs → c ≠ [] ∧ c.length ≤ 10 := by
  intro n
  induction n with
  | zero =>
    intro xs c h hm
    have : xs = [] := List.eq_nil_of_length_eq_zero (by omega)
    subst this
    simp [evoChunksF] at hm
  | succ n ih =>
    intro xs c h hm
    match xs with
    | [] => simp [evoChunksF] at hm
    | x :: rest =>
      rw [evoChunksF] at hm
      rcases List.mem_cons.mp hm with h1 | h2
      · subst h1
        exact ⟨by simp, List.length_take_le 10 (x :: rest)⟩
      · have hlen : (List.drop 10 (x :: rest)).length ≤ n := by
          rw [List.length_drop]
          simp only [List.length_cons] at h ⊢
          omega
        exact ih _ _ hlen h2

lemma evoChunksF_nil_iff : ∀ (n : Nat) (xs : List Str), xs.length ≤ n →
    (evoChunksF n xs = [] ↔ xs = []) := by
  intro n
  match n with
  | 0 =>
    intro xs h
    have : xs = [] := List.eq_nil_of_length_eq_zero (by omega)
    subst this
    simp [evoChunksF]
  | n + 1 =>
    intro xs _
    match xs with
    | [] => simp [evoChunksF]
    | x :: rest => simp [evoChunksF]

lemma evoChunksF_full : ∀ (n : Nat) (xs : List Str) (i : Nat), xs.length ≤ n →
    i + 1 < (evoChunksF n xs).length → ((evoChunksF n xs).getD i []).length = 10 := by
  intro n
  induction n with
  | zero =>
    intro xs i h hi
    have : xs = [] := List.eq_nil_of_length_eq_zero (by omega)
    subst this
    simp [evoChunksF] at hi
  | succ n ih =>
    intro xs i h hi
    match xs with
    | [] => simp [evoChunksF] at hi
    | x :: rest =>
      have hlen : (List.drop 10 (x :: rest)).length ≤ n := by
        rw [List.length_drop]
        simp only [List.length_cons] at h ⊢
        omega
      rw [evoChunksF] at hi ⊢
      match i with
      | 0 =>
        simp only [List.getD_cons_zero]
        simp only [List.length_cons] at hi
        have hne : evoChunksF n (List.drop 10 (x :: rest)) ≠ [] := by
          intro hq
          rw [hq] at hi
          simp at hi
        have hrest : List.drop 10 (x :: rest) ≠ [] := by
          intro hq
          exact hne ((evoChunksF_nil_iff n _ hlen).mpr hq)
        have h10 : 10 < (x :: rest).length := by
          by_contra hc
          exact hrest (List.drop_eq_nil_of_le (by omega))
        simp only [List.length_cons] at h10
        simp [List.length_take]
        omega
      | j + 1 =>
        simp only [List.getD_cons_succ]
        exact ih _ j hlen (by simpa using hi)

lemma foldl_append_map_join (f : List Str → List Str) :
    ∀ (cs : List (List Str)) (acc : List Str),
      cs.foldl (fun a c => a ++ f c) acc = acc ++ (cs.map f).flatten := by
  intro cs
  induction cs with
  | nil => intro acc; simp
  | cons c cs ih =>
    intro acc
    simp only [List.foldl_cons, List.map_cons, List.flatten_cons]
    rw [ih]
    simp

/-- Claim C9: the structured-pipeline pass partitions the fragment list
into consecutive chunks of exactly 10 fragments (the final chunk
possibly shorter, never empty), with no token-cost parameter anywhere
in the chunking; chunks are translated in order and the per-chunk
results concatenated in chunk order, and the concatenation of the
chunk inputs equals the original fragment list. -/
theorem claim_c9 (backend : List Str → Except Unit (Int × Str)) (texts : List Str) :
    (evoChunks texts).flatten = texts ∧
    (∀ c ∈ evoChunks texts, c ≠ [] ∧ c.length ≤ 10) ∧
    (∀ i : Nat, i + 1 < (evoChunks texts).length →
      ((evoChunks texts).getD i []).length = 10) ∧
    translate_texts_with_evolutionary_config backend texts =
      ((evoChunks texts).map (translate_text_chunk_ec backend)).flatten := by
  refine ⟨evoChunksF_join _ _ (le_refl _), ?_, ?_, ?_⟩
  · intro c hc
    exact evoChunksF_mem _ _ _ (le_refl _) hc
  · intro i hi
    exact evoChunksF_full _ _ _ (le_refl _) hi
  · unfold translate_texts_with_evolutionary_config
    rw [foldl_append_map_join]
    simp [evoChunks]

/-- Claim C9 witness: the theorem applied at a concrete 12-fragment
list and a concrete backend. -/
theorem claim_c9_witness :
    (evoChunks (List.replicate 12 "a".data)).flatten = List.replicate 12 "a".data ∧
    ((evoChunks (List.replicate 12 "a".data)).getD 0 []).length = 10 :=
  ⟨(claim_c9 (fun _ => Except.error ()) (List.replicate 12 "a".data)).1,
   (claim_c9 (fun _ => Except.error ()) (List.replicate 12 "a".data)).2.2.1 0 (by decide)⟩

/-- Claim C10: if the input matches the subtitle shape test but parsing
extracts no fragments, the full-pipeline entry point returns the input
unchanged, for every backend oracle (so no backend call can influence
the result). -/
theorem claim_c10 (backend : List Str → Except Unit (Int × Str))
    (simpleOracle : Except Unit (Int × Str)) (d : Str)
    (h1 : hasSrtShape d = true) (h2 : (extract_text_from_srt d).1 = []) :
    translate_srt_optimized backend simpleOracle d = Except.ok d := by
  unfold translate_srt_optimized
  rw [h1]
  simp [h2]

/-- Claim C10 witness: a document with a subtitle block and no
translatable content. -/
theorem claim_c10_witness :
    hasSrtShape "1\n00:00:01,000 --> 00:00:02,000\n".data = true ∧
    (extract_text_from_srt "1\n00:00:01,000 --> 00:00:02,000\n".data).1 = [] ∧
    translate_srt_optimized (fun _ => Except.error ()) (Except.error ())
      "1\n00:00:01,000 --> 00:00:02,000\n".data =
      Except.ok "1\n00:00:01,000 --> 00:00:02,000\n".data :=
  ⟨by decide, by decide, claim_c10 _ _ _ (by decide) (by decide)⟩

lemma extract_fold_inv : ∀ (bs : List Str) (texts : List Str) (smap : List SubBlock),
    ((smap.filter fun b => b.has_text).map fun b => b.text_index) =
      (List.range texts.length).map (fun i => some (Int.ofNat i)) →
    (∀ b ∈ smap, b.has_text = false → b.text_index = none) →
    (((bs.foldl extractStep (texts, smap)).2.filter fun b => b.has_text).map
        fun b => b.text_index) =
      (List.range (bs.foldl extractStep (texts, smap)).1.length).map
        (fun i => some (Int.ofNat i)) ∧
    ∀ b ∈ (bs.foldl extractStep (texts, smap)).2, b.has_text = false → b.text_index = none := by
  intro bs
  induction bs with
  | nil => intro texts smap h1 h2; exact ⟨h1, h2⟩
  | cons b bs ih =>
    intro texts smap h1 h2
    simp only [List.foldl_cons]
    rcases hp : processBlock b with _ | out
    · have : extractStep (texts, smap) b = (texts, smap) := by
        unfold extractStep
        rw [hp]
      rw [this]
      exact ih texts smap h1 h2
    · match out with
      | BlockOut.noText num ts content orig =>
        have : extractStep (texts, smap) b =
            (texts, smap ++ [⟨num, ts, content, none, false, none, orig⟩]) := by
          unfold extractStep
          rw [hp]
        rw [this]
        apply ih
        · rw [List.filter_append]
          simp [h1]
        · intro x hx _
          rcases List.mem_append.mp hx with hxa | hxb
          · exact h2 x hxa (by assumption)
          · simp at hxb
            subst hxb
            rfl
      | BlockOut.withText num ts content orig ex frag =>
        have : extractStep (texts, smap) b =
            (texts ++ [frag],
             smap ++ [⟨num, ts, content, some (texts.length : Int), true, some ex, orig⟩]) := by
          unfold extractStep
          rw [hp]
        rw [this]
        apply ih
        · rw [List.filter_append]
          simp only [List.map_append, List.length_append, List.length_cons, List.length_nil]
          rw [h1]
          have : texts.length + 1 = texts.length + [frag].length := by simp
          simp [List.range_succ]
        · intro x hx hfalse
          rcases List.mem_append.mp hx with hxa | hxb
          · exact h2 x hxa hfalse
          · simp at hxb
            subst hxb
            simp at hfalse

/-- Claim C4: parsing assigns fragment indices that are exactly
`some 0, some 1, …` in document order over the blocks with
`has_text = true` (hence unique, contiguous from 0, one per such
block), the fragment-list length equals the number of `has_text`
blocks, and every block without translatable text carries no index. -/
theorem claim_c4 (d : Str) :
    (((extract_text_from_srt d).2.filter fun b => b.has_text).map fun b => b.text_index) =
      (List.range (extract_text_from_srt d).1.length).map (fun i => some (Int.ofNat i)) ∧
    (extract_text_from_srt d).1.length =
      ((extract_text_from_srt d).2.filter fun b => b.has_text).length ∧
    ∀ b ∈ (extract_text_from_srt d).2, b.has_text = false → b.text_index = none := by
  have h := extract_fold_inv (splitBL (strip d)) [] [] (by simp) (by simp)
  unfold extract_text_from_srt
  refine ⟨h.1, ?_, h.2⟩
  have hl := congrArg List.length h.1
  rw [List.length_map, List.length_map, List.length_range] at hl
  exact hl.symm

/-- Claim C4 witness: the theorem applied at a concrete two-block
document (one block with text, one sound-cue block that still has
text after stripping, plus an empty-content block). -/
theorem claim_c4_witness :
    ((((extract_text_from_srt
        "1\n00:00:01,000 --> 00:00:02,000\nHello there\n\n2\n00:00:03,000 --> 00:00:04,000\n".data).2.filter
          fun b => b.has_text).map fun b => b.text_index) =
      (List.range (extract_text_from_srt
        "1\n00:00:01,000 --> 00:00:02,000\nHello there\n\n2\n00:00:03,000 --> 00:00:04,000\n".data).1.length).map
        (fun i => some (Int.ofNat i))) :=
  (claim_c4 _).1

-- Abbreviation for the per-chunk property of claim C5: non-empty, and
-- within budget unless it is an oversized singleton.
def chunkOk (cost : Str → Nat) (eff : Int) (g : List Str) : Prop :=
  g ≠ [] ∧ (((g.map cost).sum : Int) ≤ eff ∨ ∃ f, g = [f] ∧ eff < (cost f : Int))

lemma chunksGo_join (cost : Str → Nat) (eff : Int) :
    ∀ (subs : List Str) (acc : List (List Str)) (cur : List Str) (curT : Nat),
      (chunksGo cost eff subs acc cur curT).flatten = acc.flatten ++ cur ++ subs := by
  intro subs
  induction subs with
  | nil =>
    intro acc cur curT
    by_cases h : cur = []
    · simp [chunksGo, h]
    · simp [chunksGo, h]
  | cons sub rest ih =>
    intro acc cur curT
    rw [chunksGo]
    by_cases h1 : (cost sub : Int) > eff
    · rw [if_pos h1, ih]
      by_cases h : cur = [] <;> simp [h]
    · rw [if_neg h1]
      by_cases h2 : (curT : Int) + (cost sub : Int) > eff
      · rw [if_pos h2, ih]
        by_cases h : cur = [] <;> simp [h]
      · rw [if_neg h2, ih]
        simp

lemma chunksGo_mem (cost : Str → Nat) (eff : Int) :
    ∀ (subs : List Str) (acc : List (List Str)) (cur : List Str) (curT : Nat),
      (∀ g ∈ acc, chunkOk cost eff g) →
      (cur = [] ∨ ((cur.map cost).sum : Int) ≤ eff) →
      curT = (cur.map cost).sum →
      ∀ g ∈ chunksGo cost eff subs acc cur curT, chunkOk cost eff g := by
  intro subs
  induction subs with
  | nil =>
    intro acc cur curT hacc hcur hT g hg
    by_cases h : cur = []
    · simp [chunksGo, h] at hg
      exact hacc g hg
    · simp [chunksGo, h] at hg
      rcases hg with hg | hg
      · exact hacc g hg
      · subst hg
        exact ⟨h, Or.inl (hcur.resolve_left h)⟩
  | cons sub rest ih =>
    intro acc cur curT hacc hcur hT g hg
    rw [chunksGo] at hg
    by_cases h1 : (cost sub : Int) > eff
    · rw [if_pos h1] at hg
      refine ih _ _ _ ?_ (Or.inl rfl) (by simp) g hg
      intro x hx
      rcases List.mem_append.mp hx with hx | hx
      · by_cases h : cur = []
        · simp [h] at hx
          exact hacc x hx
        · rw [if_pos h] at hx
          rcases List.mem_append.mp hx with hy | hy
          · exact hacc x hy
          · simp at hy
            subst hy
            exact ⟨h, Or.inl (hcur.resolve_left h)⟩
      · simp at hx
        subst hx
        exact ⟨by simp, Or.inr ⟨sub, rfl, h1⟩⟩
    · rw [if_neg h1]  at hg
      by_cases h2 : (curT : Int) + (cost sub : Int) > eff
      · rw [if_pos h2] at hg
        refine ih _ _ _ ?_ (Or.inr (by simp; omega)) (by simp) g hg
        intro x hx
        by_cases h : cur = []
        · simp [h] at hx
          exact hacc x hx
        · rw [if_pos h] at hx
          rcases List.mem_append.mp hx with hy | hy
          · exact hacc x hy
          · simp at hy
            subst hy
            exact ⟨h, Or.inl (hcur.resolve_left h)⟩
      · rw [if_neg h2] at hg
        refine ih _ _ _ hacc (Or.inr ?_) (by simp [hT]) g hg
        subst hT
        simp only [not_lt, gt_iff_lt] at h2
        simp only [List.map_append, List.map_cons, List.map_nil, List.sum_append,
          List.sum_cons, List.sum_nil]
        push_cast at h2 ⊢
        omega

lemma chunksGo_acc_sub (cost : Str → Nat) (eff : Int) :
    ∀ (subs : List Str) (acc : List (List Str)) (cur : List Str) (curT : Nat) (g : List Str),
      g ∈ acc → g ∈ chunksGo cost eff subs acc cur curT := by
  intro subs
  induction subs with
  | nil =>
    intro acc cur curT g hg
    by_cases h : cur = []
    · simp [chunksGo, h]
      exact hg
    · simp [chunksGo, h]
      exact Or.inl hg
  | cons sub rest ih =>
    intro acc cur curT g hg
    rw [chunksGo]
    by_cases h1 : (cost sub : Int) > eff
    · rw [if_pos h1]
      apply ih
      by_cases h : cur = [] <;> simp [h] <;> simp [hg]
    · rw [if_neg h1]
      by_cases h2 : (curT : Int) + (cost sub : Int) > eff
      · rw [if_pos h2]
        apply ih
        by_cases h : cur = [] <;> simp [h] <;> simp [hg]
      · rw [if_neg h2]
        exact ih _ _ _ _ hg

lemma chunksGo_oversized (cost : Str → Nat) (eff : Int) :
    ∀ (subs : List Str) (acc : List (List Str)) (cur : List Str) (curT : Nat) (f : Str),
      f ∈ subs → eff < (cost f : Int) → [f] ∈ chunksGo cost eff subs acc cur curT := by
  intro subs
  induction subs with
  | nil => intro acc cur curT f hf; simp at hf
  | cons sub rest ih =>
    intro acc cur curT f hf hbig
    rcases List.mem_cons.mp hf with hf | hf
    · subst hf
      rw [chunksGo, if_pos (by omega)]
      apply chunksGo_acc_sub
      simp
    · rw [chunksGo]
      by_cases h1 : (cost sub : Int) > eff
      · rw [if_pos h1]
        exact ih _ _ _ _ hf hbig
      · rw [if_neg h1]
        by_cases h2 : (curT : Int) + (cost sub : Int) > eff
        · rw [if_pos h2]
          exact ih _ _ _ _ hf hbig
        · rw [if_neg h2]
          exact ih _ _ _ _ hf hbig

/-- Claim C5: every chunk group produced by the chunker loop is
non-empty and either keeps the sum of its per-fragment token costs
within `effectiveBudget = budget - 200` or is a singleton holding a
fragment whose standalone cost exceeds that budget; every oversized
fragment is emitted as its own singleton chunk; the groups concatenate
back to the input subtitle list (order preserved, no loss, no error);
and the source's string chunks are exactly these groups rendered with
the blank-line separator and stripped. -/
theorem claim_c5 (cost : Str → Nat) (maxTok : Int) (subs : List Str) :
    (split_srt_into_chunksG cost maxTok subs).flatten = subs ∧
    (∀ g ∈ split_srt_into_chunksG cost maxTok subs,
      g ≠ [] ∧ (((g.map cost).sum : Int) ≤ maxTok - 200 ∨
        ∃ f, g = [f] ∧ maxTok - 200 < (cost f : Int))) ∧
    (∀ f ∈ subs, maxTok - 200 < (cost f : Int) →
      [f] ∈ split_srt_into_chunksG cost maxTok subs) ∧
    split_srt_into_chunks cost maxTok subs =
      (split_srt_into_chunksG cost maxTok subs).map (fun g => strip (joinBlank g)) := by
  refine ⟨?_, ?_, ?_, rfl⟩
  · have h := chunksGo_join cost (maxTok - 200) subs [] [] 0
    simpa [split_srt_into_chunksG] using h
  · intro g hg
    exact chunksGo_mem cost (maxTok - 200) subs [] [] 0 (by simp) (Or.inl rfl) rfl g hg
  · intro f hf hbig
    exact chunksGo_oversized cost (maxTok - 200) subs [] [] 0 f hf hbig

/-- Claim C5 witness: with cost = length and budget 203 (effective
budget 3), the fragment "abcd" is oversized and becomes a singleton
chunk while "ab" stays within budget. -/
theorem claim_c5_witness :
    (split_srt_into_chunksG List.length 203 ["abcd".data, "ab".data]).flatten =
      ["abcd".data, "ab".data] ∧
    ["abcd".data] ∈ split_srt_into_chunksG List.length 203 ["abcd".data, "ab".data] :=
  ⟨(claim_c5 List.length 203 ["abcd".data, "ab".data]).1,
   (claim_c5 List.length 203 ["abcd".data, "ab".data]).2.2.1 "abcd".data (by decide)
     (by decide)⟩

-- The three validation checks of the parser (lines 296-308) on a raw
-- block: at least two lines, integer-parseable first line, timestamp
-- prefix match on the second line.  An all-whitespace block strips to
-- `[]`, whose line split `[[]]` has one line, so it fails the first
-- check, matching the source's earlier `if not block: continue`.
def validBlock (b : Str) : Bool :=
  let lines := splitOnC '\n' (strip b)
  2 ≤ lines.length && pyIntOk (strip (lines.getD 0 [])) && tsMatch (strip (lines.getD 1 []))

lemma splitOnC_nil (sep : Char) : splitOnC sep [] = [[]] := rfl

lemma processBlock_none_iff (b : Str) : processBlock b = none ↔ validBlock b = false := by
  unfold processBlock validBlock
  dsimp only
  split_ifs with h0 h1 h2 h3 h4 h5 h6 <;>
    simp_all [splitOnC_nil]

def origOf : BlockOut → Str
  | BlockOut.noText _ _ _ o => o
  | BlockOut.withText _ _ _ o _ _ => o

lemma processBlock_orig (b : Str) (out : BlockOut) (h : processBlock b = some out) :
    origOf out = strip b := by
  unfold processBlock at h
  revert h
  dsimp only
  split_ifs <;> intro h <;> cases h <;> rfl

lemma extract_orig_fold : ∀ (bs : List Str) (texts : List Str) (smap : List SubBlock),
    (bs.foldl extractStep (texts, smap)).2.map (fun r => r.original_block) =
      smap.map (fun r => r.original_block) ++ (bs.filter validBlock).map strip := by
  intro bs
  induction bs with
  | nil => intro texts smap; simp
  | cons b bs ih =>
    intro texts smap
    simp only [List.foldl_cons]
    rcases hp : processBlock b with _ | out
    · have hv : validBlock b = false := (processBlock_none_iff b).mp hp
      have : extractStep (texts, smap) b = (texts, smap) := by
        unfold extractStep
        rw [hp]
      rw [this, ih, List.filter_cons, if_neg (by simp [hv])]
    · have hv : validBlock b = true := by
        by_contra hc
        simp at hc
        rw [← processBlock_none_iff b] at hc
        rw [hp] at hc
        cases hc
      have horig := processBlock_orig b out hp
      match out with
      | BlockOut.noText num ts content orig =>
        have : extractStep (texts, smap) b =
            (texts, smap ++ [⟨num, ts, content, none, false, none, orig⟩]) := by
          unfold extractStep
          rw [hp]
        rw [this, ih, List.filter_cons, if_pos (by simp [hv])]
        simp only [origOf] at horig
        simp [horig]
      | BlockOut.withText num ts content orig ex frag =>
        have : extractStep (texts, smap) b =
            (texts ++ [frag],
             smap ++ [⟨num, ts, content, some (texts.length : Int), true, some ex, orig⟩]) := by
          unfold extractStep
          rw [hp]
        rw [this, ih, List.filter_cons, if_pos (by simp [hv])]
        simp only [origOf] at horig
        simp [horig]

/-- Claim C6 counterexample: the block whose first line is "0" — not a
positive integer — passes the source's `int()` check and is NOT
excluded: its text is extracted and it appears in the structure map.
The claim's dropping condition "first line is not a positive integer"
is therefore false of the code. -/
theorem claim_c6_cex :
    (extract_text_from_srt "0\n00:00:01,000 --> 00:00:02,000\nHello world".data).1 =
      ["Hello world".data] ∧
    (extract_text_from_srt "0\n00:00:01,000 --> 00:00:02,000\nHello world".data).2.length = 1 ∧
    (extract_text_from_srt "-7\n00:00:01,000 --> 00:00:02,000\nStill kept".data).1 =
      ["Still kept".data] := by
  exact ⟨by decide, by decide, by decide⟩

/-- Claim C6 (amended): a block is silently excluded from the structure
map (and fragment list) exactly when it has fewer than 2 lines, or its
first line is not parseable by Python `int()` (optional sign, digits,
single interior underscores — zero and negative numbers are accepted),
or its second line does not match the timestamp-range prefix pattern;
blocks passing all checks are never dropped, and the kept blocks appear
stripped, in document order. -/
theorem claim_c6_amended (d : Str) :
    (extract_text_from_srt d).2.map (fun b => b.original_block) =
      ((splitBL (strip d)).filter validBlock).map strip ∧
    ∀ b : Str, processBlock b = none ↔
      ¬(2 ≤ (splitOnC '\n' (strip b)).length ∧
        pyIntOk (strip ((splitOnC '\n' (strip b)).getD 0 [])) = true ∧
        tsMatch (strip ((splitOnC '\n' (strip b)).getD 1 [])) = true) := by
  constructor
  · have h := extract_orig_fold (splitBL (strip d)) [] []
    unfold extract_text_from_srt
    simpa using h
  · intro b
    rw [processBlock_none_iff b]
    unfold validBlock
    constructor
    · intro h hc
      simp only [Bool.and_eq_false_iff] at h
      rcases h with (h | h) | h
      · simp at h
        omega
      · exact Bool.noConfusion (hc.2.1.symm.trans h)
      · exact Bool.noConfusion (hc.2.2.symm.trans h)
    · intro h
      by_contra hc
      simp only [Bool.not_eq_false, Bool.and_eq_true, decide_eq_true_eq] at hc
      exact h ⟨hc.1.1, hc.1.2, hc.2⟩

/-- Claim C6 amended witness: the theorem applied at a document with a
valid block, a malformed trailing chunk (dropped), and a negative
sequence number (kept). -/
theorem claim_c6_amended_witness :
    (extract_text_from_srt
        "1\n00:00:01,000 --> 00:00:02,000\nHi there\n\nmalformed junk\n\n-2\n00:00:03,000 --> 00:00:04,000\nMore text".data).2.map
      (fun b => b.original_block) =
      ((splitBL (strip
        "1\n00:00:01,000 --> 00:00:02,000\nHi there\n\nmalformed junk\n\n-2\n00:00:03,000 --> 00:00:04,000\nMore text".data)).filter
        validBlock).map strip ∧
    (processBlock "no timestamp here".data = none ↔
      ¬(2 ≤ (splitOnC '\n' (strip "no timestamp here".data)).length ∧
        pyIntOk (strip ((splitOnC '\n' (strip "no timestamp here".data)).getD 0 [])) = true ∧
        tsMatch (strip ((splitOnC '\n' (strip "no timestamp here".data)).getD 1 [])) = true)) :=
  ⟨(claim_c6_amended _).1, (claim_c6_amended "x".data).2 _⟩

/-- Claim C8 counterexample: a structure map entry whose fragment index
is `-5` with a one-element translations list passes the source's
`text_index >= len` guard, and `translated_texts[-5]` raises
`IndexError` — the reconstructor does NOT emit the original block and
does not return for this index value, refuting "never raises for any
index value". -/
theorem claim_c8_cex :
    reconstruct_srt_from_translations ["x".data]
      [⟨"1".data, "t".data, "c".data, some (-5), true, none, "orig".data⟩] =
      Except.error () := by decide

-- The per-block output of the reconstructor when no exception occurs.
def emitBlockOk (ts : List Str) (b : SubBlock) : Str :=
  match b.text_index with
  | none => b.original_block
  | some i =>
    if b.has_text = true ∧ 0 ≤ i ∧ i < (ts.length : Int) then
      (b.block_number ++ '\n' :: b.timestamp ++ ['\n']) ++
        (if hasSub "<font".data b.content then rebuildContent (ts.getD i.toNat []) b.content
         else ts.getD i.toNat [])
    else b.original_block

lemma emitBlock_ok (ts : List Str) (b : SubBlock)
    (h : ∀ i : Int, b.text_index = some i → 0 ≤ i) :
    emitBlock ts b = Except.ok (emitBlockOk ts b) := by
  unfold emitBlock emitBlockOk
  rcases hidx : b.text_index with _ | i
  · by_cases hh : b.has_text = false <;> simp [hh]
  · by_cases hh : b.has_text = false
    · simp [hh, Bool.eq_false_iff.mp hh]
    · rw [if_neg hh]
      have hnn : 0 ≤ i := h i hidx
      simp only [Bool.not_eq_false] at hh
      dsimp only
      by_cases hout : (ts.length : Int) ≤ i
      · rw [if_pos hout, if_neg (by simp [hh]; omega)]
      · rw [if_neg hout, if_pos ⟨hh, hnn, by omega⟩]
        have hlt : i.toNat < ts.length := by omega
        have hget : pyGet ts i = Except.ok (ts.getD i.toNat []) := by
          unfold pyGet
          rw [if_pos hnn, List.get?_eq_getElem?, List.getElem?_eq_getElem hlt,
            List.getD_eq_getElem ts [] hlt]
        rw [hget]
        cases hf : hasSub "<font".data b.content <;> rfl
  
lemma emitAll_ok (ts : List Str) : ∀ (smap : List SubBlock),
    (∀ b ∈ smap, ∀ i : Int, b.text_index = some i → 0 ≤ i) →
    emitAll ts smap = Except.ok (smap.map (emitBlockOk ts)) := by
  intro smap
  induction smap with
  | nil => intro _; rfl
  | cons b bs ih =>
    intro h
    unfold emitAll
    rw [emitBlock_ok ts b (h b (by simp))]
    rw [ih (fun x hx => h x (by simp [hx]))]
    rfl

/-- Claim C8 (amended): the reconstructor processes blocks in document
order; for each block whose `has_text` is false, whose fragment index
is absent, or whose fragment index is at least the translations-list
length, it emits that block's original raw content unchanged instead
of failing; and it never raises provided every present fragment index
is non-negative (a negative index below `-len(translations)` raises,
per the counterexample; one in `[-len, -1]` reads from the end,
Python-style). -/
theorem claim_c8_amended (ts : List Str) (smap : List SubBlock)
    (h : ∀ b ∈ smap, ∀ i : Int, b.text_index = some i → 0 ≤ i) :
    reconstruct_srt_from_translations ts smap =
      Except.ok (joinBlank (smap.map (emitBlockOk ts))) ∧
    ∀ b ∈ smap,
      (b.has_text = false ∨ b.text_index = none ∨
        ∃ i : Int, b.text_index = some i ∧ (ts.length : Int) ≤ i) →
      emitBlockOk ts b = b.original_block := by
  constructor
  · unfold reconstruct_srt_from_translations
    rw [emitAll_ok ts smap h]
    rfl
  · intro b _ hb
    unfold emitBlockOk
    rcases hidx : b.text_index with _ | i
    · rfl
    · dsimp only
      rcases hb with hb | hb | ⟨j, hj1, hj2⟩
      · rw [if_neg (by simp [hb])]
      · rw [hidx] at hb
        cases hb
      · rw [hidx] at hj1
        cases hj1
        rw [if_neg (by push_neg; intro _ _; omega)]

/-- Claim C8 amended witness: a map with a no-text block, an
out-of-range (high) index block, and a valid block. -/
theorem claim_c8_amended_witness :
    reconstruct_srt_from_translations ["T".data]
      [⟨"1".data, "t1".data, [], none, false, none, "orig1".data⟩,
       ⟨"2".data, "t2".data, "c".data, some 7, true, none, "orig2".data⟩,
       ⟨"3".data, "t3".data, "c".data, some 0, true, none, "3\nt3\nc".data⟩] =
      Except.ok (joinBlank (List.map (emitBlockOk ["T".data])
        [⟨"1".data, "t1".data, [], none, false, none, "orig1".data⟩,
         ⟨"2".data, "t2".data, "c".data, some 7, true, none, "orig2".data⟩,
         ⟨"3".data, "t3".data, "c".data, some 0, true, none, "3\nt3\nc".data⟩])) ∧
    emitBlockOk ["T".data] ⟨"2".data, "t2".data, "c".data, some 7, true, none, "orig2".data⟩ =
      "orig2".data :=
  ⟨(claim_c8_amended ["T".data] _ (by decide)).1,
   (claim_c8_amended ["T".data]
      [⟨"1".data, "t1".data, [], none, false, none, "orig1".data⟩,
       ⟨"2".data, "t2".data, "c".data, some 7, true, none, "orig2".data⟩,
       ⟨"3".data, "t3".data, "c".data, some 0, true, none, "3\nt3\nc".data⟩] (by decide)).2
     _ (by simp) (Or.inr (Or.inr ⟨7, rfl, by decide⟩))⟩

/-- Claim C2 counterexample: a block whose content spans two lines.
Extraction collapses the newline to a space ("Hello there"), and the
pass-through reconstruction emits the collapsed single line, so the
rebuilt document differs byte-for-byte from the original. -/
theorem claim_c2_cex :
    (reconstruct_srt_from_translations
      (extract_text_from_srt "1\n00:00:01,000 --> 00:00:02,000\nHello\nthere".data).1
      (extract_text_from_srt "1\n00:00:01,000 --> 00:00:02,000\nHello\nthere".data).2) ≠
      Except.ok "1\n00:00:01,000 --> 00:00:02,000\nHello\nthere".data := by decide

/-
For the amended claim C2 the round trip is restricted to documents that
are a blank-line join of normalized simple blocks: sequence line,
timestamp line, and a single markup-free content line that parsing does
not rewrite.  `simpleWf` states the normalization; each conjunct is
decidable.
-/

structure SimpleBlock where
  num : Str
  ts : Str
  content : Str

def renderBlock (b : SimpleBlock) : Str := b.num ++ '\n' :: (b.ts ++ '\n' :: b.content)

def renderDoc (bs : List SimpleBlock) : Str := joinBlank (bs.map renderBlock)

def headNonWs : Str → Bool
  | [] => false
  | c :: _ => ! isWsC c

def simpleWf (b : SimpleBlock) : Prop :=
  b.num ≠ [] ∧ pyIntOk b.num = true ∧ '\n' ∉ b.num ∧
    headNonWs b.num = true ∧ headNonWs b.num.reverse = true ∧
  tsMatch b.ts = true ∧ b.ts ≠ [] ∧ '\n' ∉ b.ts ∧
    headNonWs b.ts = true ∧ headNonWs b.ts.reverse = true ∧
  2 ≤ b.content.length ∧ '\n' ∉ b.content ∧ '<' ∉ b.content ∧ braceL ∉ b.content ∧
    headNonWs b.content = true ∧ headNonWs b.content.reverse = true ∧
    collapseWs b.content = b.content

instance (b : SimpleBlock) : Decidable (simpleWf b) := by
  unfold simpleWf
  infer_instance

lemma takeWhileWs_nil_of_headNonWs {s : Str} (h : headNonWs s = true) :
    s.takeWhile (fun c => isWsC c) = [] := by
  match s with
  | [] => rfl
  | c :: cs =>
    unfold headNonWs at h
    simp only [Bool.not_eq_true'] at h
    simp [List.takeWhile_cons, h]

lemma dropWhileWs_id_of_headNonWs {s : Str} (h : headNonWs s = true) :
    s.dropWhile (fun c => isWsC c) = s := by
  match s with
  | [] => rfl
  | c :: cs =>
    unfold headNonWs at h
    simp only [Bool.not_eq_true'] at h
    simp [List.dropWhile_cons, h]

lemma strip_id {s : Str} (h1 : headNonWs s = true) (h2 : headNonWs s.reverse = true) :
    strip s = s := by
  unfold strip stripL
  rw [dropWhileWs_id_of_headNonWs h1, dropWhileWs_id_of_headNonWs h2, List.reverse_reverse]

lemma headNonWs_append {xs ys : Str} (h : xs ≠ []) :
    headNonWs (xs ++ ys) = headNonWs xs := by
  match xs with
  | [] => exact absurd rfl h
  | c :: cs => rfl

lemma hasPre_cons_false {c : Char} {p s : Str} (h : c ∉ s) (hs : s ≠ []) :
    hasPre (c :: p) s = false := by
  match s with
  | [] => exact absurd rfl hs
  | x :: xs =>
    have : ¬ c = x := fun hc => h (by simp [hc])
    simp [hasPre, this]

lemma hasSub_cons_false {c : Char} {p : Str} : ∀ {s : Str}, c ∉ s → hasSub (c :: p) s = false := by
  intro s
  induction s with
  | nil => intro _; rfl
  | cons x xs ih =>
    intro h
    unfold hasSub
    rw [hasPre_cons_false h (by simp), ih (fun hc => h (by simp [hc]))]
    rfl

lemma stripTagsF_id : ∀ (n : Nat) (s : Str), s.length ≤ n → '<' ∉ s → stripTagsF n s = s := by
  intro n
  induction n with
  | zero =>
    intro s h _
    have : s = [] := List.eq_nil_of_length_eq_zero (by omega)
    subst this
    rfl
  | succ n ih =>
    intro s h hn
    match s with
    | [] => rfl
    | c :: cs =>
      have hc : ¬ c = '<' := fun hc => hn (by simp [hc])
      rw [stripTagsF, if_neg hc, ih cs (by simp at h; omega) (fun hm => hn (by simp [hm]))]

lemma stripBracesF_id : ∀ (n : Nat) (s : Str), s.length ≤ n → braceL ∉ s →
    stripBracesF n s = s := by
  intro n
  induction n with
  | zero =>
    intro s h _
    have : s = [] := List.eq_nil_of_length_eq_zero (by omega)
    subst this
    rfl
  | succ n ih =>
    intro s h hn
    match s with
    | [] => rfl
    | c :: cs =>
      have hc : ¬ c = braceL := fun hc => hn (by simp [hc])
      rw [stripBracesF, if_neg hc, ih cs (by simp at h; omega) (fun hm => hn (by simp [hm]))]

lemma stripTags_id {s : Str} (h : '<' ∉ s) : stripTags s = s :=
  stripTagsF_id s.length s (le_refl _) h

lemma stripBraces_id {s : Str} (h : braceL ∉ s) : stripBraces s = s :=
  stripBracesF_id s.length s (le_refl _) h

lemma splitOnC_ne_nil (sep : Char) : ∀ (s : Str), splitOnC sep s ≠ [] := by
  intro s
  induction s with
  | nil => simp [splitOnC]
  | cons c cs ih =>
    unfold splitOnC at ih ⊢
    rw [List.foldr_cons]
    rcases hq : List.foldr _ [[]] cs with _ | ⟨t, ts⟩
    · exact absurd hq ih
    · by_cases hc : c = sep <;> simp [hc]

lemma splitOnC_cons_sep (sep : Char) (cs : Str) :
    splitOnC sep (sep :: cs) = [] :: splitOnC sep cs := by
  unfold splitOnC
  rw [List.foldr_cons]
  rcases hq : List.foldr _ [[]] cs with _ | ⟨t, ts⟩
  · exact absurd hq (by have := splitOnC_ne_nil sep cs; unfold splitOnC at this; exact this)
  · simp

lemma splitOnC_cons_nosep (sep : Char) {c : Char} (hc : ¬ c = sep) (cs : Str) {h : Str}
    {t : List Str} (hq : splitOnC sep cs = h :: t) :
    splitOnC sep (c :: cs) = (c :: h) :: t := by
  unfold splitOnC at hq ⊢
  rw [List.foldr_cons, hq]
  simp [hc]

lemma splitOnC_append_nosep (sep : Char) : ∀ (xs : Str), (∀ c ∈ xs, ¬ c = sep) →
    ∀ {s : Str} {h : Str} {t : List Str}, splitOnC sep s = h :: t →
    splitOnC sep (xs ++ s) = (xs ++ h) :: t := by
  intro xs
  induction xs with
  | nil => intro _ s h t hq; simpa using hq
  | cons x xs ih =>
    intro hx s h t hq
    have hrec := ih (fun c hc => hx c (by simp [hc])) hq
    rw [List.cons_append,
      splitOnC_cons_nosep sep (hx x (by simp)) (xs ++ s) hrec]
    rfl

lemma splitOnC_no_sep (sep : Char) (s : Str) (h : ∀ c ∈ s, ¬ c = sep) :
    splitOnC sep s = [s] := by
  have := splitOnC_append_nosep sep s h (s := []) (h := []) (t := []) rfl
  simpa using this

lemma joinNl_single (s : Str) : joinNl [s] = s := by
  simp [joinNl, List.intercalate]

lemma joinSpace_single (s : Str) : joinSpace [s] = s := by
  simp [joinSpace, List.intercalate]

lemma lines_render (b : SimpleBlock) (hw : simpleWf b) :
    splitOnC '\n' (renderBlock b) = [b.num, b.ts, b.content] := by
  obtain ⟨_, _, hnum_nl, _, _, _, _, hts_nl, _, _, _, hct_nl, _, _, _, _, _⟩ := hw
  have h1 : splitOnC '\n' b.content = [b.content] :=
    splitOnC_no_sep '\n' b.content (fun c hc he => hct_nl (he ▸ hc))
  have h2 : splitOnC '\n' ('\n' :: b.content) = [[], b.content] := by
    rw [splitOnC_cons_sep, h1]
  have h3 : splitOnC '\n' (b.ts ++ '\n' :: b.content) = [b.ts, b.content] := by
    have := splitOnC_append_nosep '\n' b.ts (fun c hc he => hts_nl (he ▸ hc)) h2
    simpa using this
  have h4 : splitOnC '\n' ('\n' :: (b.ts ++ '\n' :: b.content)) = [[], b.ts, b.content] := by
    rw [splitOnC_cons_sep, h3]
  have h5 := splitOnC_append_nosep '\n' b.num (fun c hc he => hnum_nl (he ▸ hc)) h4
  unfold renderBlock
  simpa using h5

lemma headNonWs_renderBlock (b : SimpleBlock) (hw : simpleWf b) :
    headNonWs (renderBlock b) = true := by
  obtain ⟨hne, _, _, hh, _⟩ := hw
  unfold renderBlock
  rw [headNonWs_append hne]
  exact hh

lemma lastNonWs_renderBlock (b : SimpleBlock) (hw : simpleWf b) :
    headNonWs (renderBlock b).reverse = true := by
  obtain ⟨_, _, _, _, _, _, _, _, _, _, hlen, _, _, _, _, hl, _⟩ := hw
  have hcne : b.content ≠ [] := by
    intro hq
    rw [hq] at hlen
    simp at hlen
  have hrw : (renderBlock b).reverse =
      b.content.reverse ++ ('\n' :: (b.ts.reverse ++ '\n' :: b.num.reverse)) := by
    simp [renderBlock]
  rw [hrw, headNonWs_append (by simp [hcne])]
  exact hl

lemma extractTexts_simple (c : Str) (hlt : '<' ∉ c) (hbr : braceL ∉ c)
    (hcol : collapseWs c = c) (hh : headNonWs c = true) (hr : headNonWs c.reverse = true)
    (hne : c ≠ []) : extractTexts c = [c] := by
  unfold extractTexts
  rw [hasSub_cons_false hlt]
  simp only [Bool.false_eq_true, if_false]
  simp only [if_true]
  rw [stripTags_id hlt, stripBraces_id hbr, hcol, strip_id hh hr, if_pos hne]

lemma processBlock_render (b : SimpleBlock) (hw : simpleWf b) :
    processBlock (renderBlock b) =
      some (BlockOut.withText b.num b.ts b.content (renderBlock b) [b.content] b.content) := by
  have hstrip : strip (renderBlock b) = renderBlock b :=
    strip_id (headNonWs_renderBlock b hw) (lastNonWs_renderBlock b hw)
  have hlines := lines_render b hw
  obtain ⟨hnne, hint, hnum_nl, hnh, hnr, hts, htsne, hts_nl, hth, htr, hlen, hct_nl, hct_lt,
    hct_br, hch, hcr, hcol⟩ := hw
  have hrbne : renderBlock b ≠ [] := by
    unfold renderBlock
    simp [hnne]
  have hcne : b.content ≠ [] := by
    intro hq
    rw [hq] at hlen
    simp at hlen
  unfold processBlock
  rw [hstrip, if_neg hrbne, hlines]
  rw [if_neg (by simp)]
  simp only [List.getD_cons_zero, List.getD_cons_succ]
  rw [strip_id hnh hnr, if_neg (by simp [hint])]
  rw [strip_id hth htr, if_neg (by simp [hts])]
  have hdrop : List.drop 2 [b.num, b.ts, b.content] = [b.content] := rfl
  rw [hdrop, joinNl_single, strip_id hch hcr, if_neg hcne]
  rw [extractTexts_simple b.content hct_lt hct_br hcol hch hcr hcne]
  rw [if_pos (by simp)]
  rw [joinSpace_single, stripBraces_id hct_br, hcol, strip_id hch hcr]
  rw [if_neg (by omega)]

lemma splitBLF_nil (n : Nat) (cur : Str) (acc : List Str) :
    splitBLF n [] cur acc = (cur.reverse :: acc).reverse := by
  match n with
  | 0 => rfl
  | _ + 1 => rfl

lemma blankEnd_none_of_headNonWs {r : Str} (h : r = [] ∨ headNonWs r = true) :
    blankEnd r = none := by
  have hw : r.takeWhile (fun c => isWsC c) = [] := by
    rcases h with h | h
    · rw [h]
      rfl
    · exact takeWhileWs_nil_of_headNonWs h
  unfold blankEnd
  rw [hw]
  rfl

lemma splitBLF_run : ∀ (xs : Str), (∀ c ∈ xs, ¬ c = '\n') →
    ∀ (k : Nat) (s : Str) (cur : Str) (acc : List Str),
      splitBLF (xs.length + k) (xs ++ s) cur acc = splitBLF k s (xs.reverse ++ cur) acc := by
  intro xs
  induction xs with
  | nil => intro _ k s cur acc; simp
  | cons x xs ih =>
    intro hx k s cur acc
    have harith : (x :: xs).length + k = (xs.length + k) + 1 := by
      simp
      omega
    rw [harith, List.cons_append, splitBLF, if_neg (hx x (by simp))]
    rw [ih (fun c hc => hx c (by simp [hc])) k s (x :: cur) acc]
    simp

lemma splitBLF_nl {cs : Str} (h : blankEnd cs = none) (n : Nat) (cur : Str) (acc : List Str) :
    splitBLF (n + 1) ('\n' :: cs) cur acc = splitBLF n cs ('\n' :: cur) acc := by
  rw [splitBLF, if_pos rfl, h]

lemma splitBLF_sep {t : Str} (h : headNonWs t = true) (n : Nat) (cur : Str) (acc : List Str) :
    splitBLF (n + 1) ('\n' :: '\n' :: t) cur acc = splitBLF n t [] (cur.reverse :: acc) := by
  have hbe : blankEnd ('\n' :: t) = some 1 := by
    unfold blankEnd
    rw [List.takeWhile_cons]
    have : isWsC '\n' = true := by decide
    rw [if_pos this, takeWhileWs_nil_of_headNonWs h]
    rfl
  rw [splitBLF, if_pos rfl, hbe]
  rfl

lemma splitBLF_block (b : SimpleBlock) (hw : simpleWf b) :
    ∀ (k : Nat) (s : Str) (cur : Str) (acc : List Str),
      splitBLF ((renderBlock b).length + k) (renderBlock b ++ s) cur acc =
        splitBLF k s ((renderBlock b).reverse ++ cur) acc := by
  obtain ⟨hnne, hint, hnum_nl, hnh, hnr, hts, htsne, hts_nl, hth, htr, hlen, hct_nl, hct_lt,
    hct_br, hch, hcr, hcol⟩ := hw
  intro k s cur acc
  have hcne : b.content ≠ [] := by
    intro hq
    rw [hq] at hlen
    simp at hlen
  have hshape : renderBlock b ++ s =
      b.num ++ ('\n' :: (b.ts ++ ('\n' :: (b.content ++ s)))) := by
    simp [renderBlock]
  have hlenrb : (renderBlock b).length + k =
      b.num.length + ((b.ts.length + ((b.content.length + k) + 1)) + 1) := by
    simp [renderBlock]
    omega
  rw [hshape, hlenrb]
  rw [splitBLF_run b.num (fun c hc he => hnum_nl (he ▸ hc)) _ _ cur acc]
  rw [splitBLF_nl (blankEnd_none_of_headNonWs
    (Or.inr (by rw [headNonWs_append htsne]; exact hth)))]
  rw [splitBLF_run b.ts (fun c hc he => hts_nl (he ▸ hc)) _ _ _ acc]
  rw [splitBLF_nl (blankEnd_none_of_headNonWs
    (Or.inr (by rw [headNonWs_append hcne]; exact hch)))]
  rw [splitBLF_run b.content (fun c hc he => hct_nl (he ▸ hc)) k s _ acc]
  congr 1
  simp [renderBlock]

lemma intercalate_cons₂ (sep a b : Str) (t : List Str) :
    List.intercalate sep (a :: b :: t) = a ++ (sep ++ List.intercalate sep (b :: t)) := by
  unfold List.intercalate
  rw [List.intersperse_cons_cons]
  simp

lemma renderDoc_cons_cons (b b' : SimpleBlock) (bs : List SimpleBlock) :
    renderDoc (b :: b' :: bs) = renderBlock b ++ '\n' :: '\n' :: renderDoc (b' :: bs) := by
  unfold renderDoc joinBlank
  rw [List.map_cons, List.map_cons, intercalate_cons₂]
  simp

lemma renderDoc_single (b : SimpleBlock) : renderDoc [b] = renderBlock b := by
  unfold renderDoc joinBlank
  simp [List.intercalate]

lemma headNonWs_renderDoc (b : SimpleBlock) (bs : List SimpleBlock) (hw : simpleWf b) :
    headNonWs (renderDoc (b :: bs)) = true := by
  match bs with
  | [] =>
    rw [renderDoc_single]
    exact headNonWs_renderBlock b hw
  | b' :: bs' =>
    rw [renderDoc_cons_cons]
    have hrbne : renderBlock b ≠ [] := by
      unfold renderBlock
      obtain ⟨hnne, _⟩ := hw
      simp [hnne]
    rw [headNonWs_append hrbne]
    exact headNonWs_renderBlock b hw

lemma splitBL_doc : ∀ (bs : List SimpleBlock) (b : SimpleBlock), simpleWf b →
    (∀ x ∈ bs, simpleWf x) →
    ∀ (k : Nat) (acc : List Str),
      splitBLF ((renderDoc (b :: bs)).length + k) (renderDoc (b :: bs)) [] acc =
        acc.reverse ++ (b :: bs).map renderBlock := by
  intro bs
  induction bs with
  | nil =>
    intro b hb _ k acc
    rw [renderDoc_single]
    have hstep := splitBLF_block b hb k [] [] acc
    rw [List.append_nil] at hstep
    rw [hstep, splitBLF_nil]
    simp
  | cons b' bs' ih =>
    intro b hb hall k acc
    rw [renderDoc_cons_cons]
    have harith : (renderBlock b ++ '\n' :: '\n' :: renderDoc (b' :: bs')).length + k =
        (renderBlock b).length + (((renderDoc (b' :: bs')).length + (k + 1)) + 1) := by
      simp
      omega
    rw [harith]
    rw [splitBLF_block b hb _ _ [] acc]
    rw [splitBLF_sep (headNonWs_renderDoc b' bs' (hall b' (by simp)))]
    have hih := ih b' (hall b' (by simp)) (fun x hx => hall x (by simp [hx])) (k + 1)
      (((renderBlock b).reverse ++ []).reverse :: acc)
    exact hih.trans (by simp)

lemma headNonWs_ne_nil {s : Str} (h : headNonWs s = true) : s ≠ [] := by
  intro hq
  rw [hq] at h
  cases h

lemma lastNonWs_renderDoc : ∀ (bs : List SimpleBlock) (b : SimpleBlock),
    (∀ x ∈ b :: bs, simpleWf x) → headNonWs (renderDoc (b :: bs)).reverse = true := by
  intro bs
  induction bs with
  | nil =>
    intro b h
    rw [renderDoc_single]
    exact lastNonWs_renderBlock b (h b (by simp))
  | cons b' bs' ih =>
    intro b h
    have hrw : (renderDoc (b :: b' :: bs')).reverse =
        (renderDoc (b' :: bs')).reverse ++ ('\n' :: '\n' :: (renderBlock b).reverse) := by
      rw [renderDoc_cons_cons]
      simp
    have htail := ih b' (fun x hx => h x (by simp at hx ⊢; tauto))
    rw [hrw, headNonWs_append (headNonWs_ne_nil htail)]
    exact htail

def mkRec (k : Nat) (b : SimpleBlock) : SubBlock :=
  ⟨b.num, b.ts, b.content, some (k : Int), true, some [b.content], renderBlock b⟩

def recsFrom : Nat → List SimpleBlock → List SubBlock
  | _, [] => []
  | k, b :: bs => mkRec k b :: recsFrom (k + 1) bs

lemma extract_fold_render : ∀ (bs : List SimpleBlock) (texts : List Str) (smap : List SubBlock),
    (∀ b ∈ bs, simpleWf b) →
    (bs.map renderBlock).foldl extractStep (texts, smap) =
      (texts ++ bs.map (fun b => b.content), smap ++ recsFrom texts.length bs) := by
  intro bs
  induction bs with
  | nil => intro texts smap _; simp [recsFrom]
  | cons b bs ih =>
    intro texts smap h
    rw [List.map_cons, List.foldl_cons]
    have hstep : extractStep (texts, smap) (renderBlock b) =
        (texts ++ [b.content], smap ++ [mkRec texts.length b]) := by
      unfold extractStep
      rw [processBlock_render b (h b (by simp))]
      rfl
    rw [hstep, ih (texts ++ [b.content]) (smap ++ [mkRec texts.length b])
      (fun x hx => h x (by simp [hx]))]
    rw [recsFrom]
    simp

lemma extract_render (bs : List SimpleBlock) (h : ∀ b ∈ bs, simpleWf b) :
    extract_text_from_srt (renderDoc bs) =
      (bs.map (fun b => b.content), recsFrom 0 bs) := by
  match bs with
  | [] => rfl
  | b :: bs' =>
    unfold extract_text_from_srt
    have hsplit : splitBL (strip (renderDoc (b :: bs'))) = (b :: bs').map renderBlock := by
      rw [strip_id (headNonWs_renderDoc b bs' (h b (by simp)))
        (lastNonWs_renderDoc bs' b h)]
      unfold splitBL
      have hd := splitBL_doc bs' b (h b (by simp)) (fun x hx => h x (by simp [hx])) 0 []
      simpa using hd
    rw [hsplit]
    have hf := extract_fold_render (b :: bs') [] [] h
    simpa using hf

lemma getD_append_mid (pre : List Str) (x : Str) (rest : List Str) :
    (pre ++ x :: rest).getD pre.length [] = x := by
  unfold List.getD
  rw [List.get?_eq_getElem?, List.getElem?_append_right (by simp)]
  simp

lemma emitAll_recs (ts : List Str) : ∀ (bs : List SimpleBlock) (pre : List Str),
    (∀ b ∈ bs, simpleWf b) →
    ts = pre ++ bs.map (fun b => b.content) →
    emitAll ts (recsFrom pre.length bs) = Except.ok (bs.map renderBlock) := by
  intro bs
  induction bs with
  | nil => intro pre _ _; rfl
  | cons b bs ih =>
    intro pre h hts
    have hwb := h b (by simp)
    obtain ⟨hnne, hint, hnum_nl, hnh, hnr, hts', htsne, hts_nl, hth, htr, hlen, hct_nl, hct_lt,
      hct_br, hch, hcr, hcol⟩ := hwb
    rw [recsFrom]
    unfold emitAll
    have hklen : ((pre.length : Nat) : Int) < (ts.length : Int) := by
      rw [hts]
      simp
    have hemit : emitBlock ts (mkRec pre.length b) = Except.ok (renderBlock b) := by
      rw [emitBlock_ok ts (mkRec pre.length b)
        (by intro i hi; cases hi; exact Int.natCast_nonneg _)]
      congr 1
      unfold emitBlockOk mkRec
      dsimp only
      rw [if_pos ⟨rfl, Int.natCast_nonneg _, hklen⟩]
      rw [hasSub_cons_false hct_lt]
      simp only [Bool.false_eq_true, if_false]
      rw [Int.toNat_natCast]
      rw [hts, List.map_cons, getD_append_mid]
      simp [renderBlock]
    rw [hemit]
    have hih := ih (pre ++ [b.content]) (fun x hx => h x (by simp [hx]))
      (by rw [hts]; simp)
    rw [show (pre ++ [b.content]).length = pre.length + 1 from by simp] at hih
    rw [hih]
    rfl

/-- Claim C2 (amended): the pass-through round trip holds for documents
that are a blank-line join of normalized simple blocks — sequence line,
timestamp line, and a single content line that is markup-free
(no tags, no brace codes), whitespace-normalized, and at least two
characters long: with the identity backend, reconstructing from the
extracted fragments and structure map returns the document
byte-for-byte.  (In general it fails: extraction collapses whitespace,
joins multi-line content, and rewrites markup, per the counterexample.) -/
theorem claim_c2_amended (bs : List SimpleBlock) (h : ∀ b ∈ bs, simpleWf b) :
    reconstruct_srt_from_translations (extract_text_from_srt (renderDoc bs)).1
      (extract_text_from_srt (renderDoc bs)).2 = Except.ok (renderDoc bs) := by
  rw [extract_render bs h]
  unfold reconstruct_srt_from_translations
  have hrec := emitAll_recs (bs.map fun b => b.content) bs [] h (by simp)
  simp only [List.length_nil] at hrec
  rw [hrec]
  rfl

/-- Claim C2 amended witness: a concrete two-block normalized document. -/
theorem claim_c2_amended_witness :
    reconstruct_srt_from_translations
      (extract_text_from_srt (renderDoc
        [⟨"1".data, "00:00:01,000 --> 00:00:02,000".data, "Hello world".data⟩,
         ⟨"2".data, "00:00:03,000 --> 00:00:04,000".data, "Good bye now".data⟩])).1
      (extract_text_from_srt (renderDoc
        [⟨"1".data, "00:00:01,000 --> 00:00:02,000".data, "Hello world".data⟩,
         ⟨"2".data, "00:00:03,000 --> 00:00:04,000".data, "Good bye now".data⟩])).2 =
      Except.ok (renderDoc
        [⟨"1".data, "00:00:01,000 --> 00:00:02,000".data, "Hello world".data⟩,
         ⟨"2".data, "00:00:03,000 --> 00:00:04,000".data, "Good bye now".data⟩]) :=
  claim_c2_amended _ (by decide)

/-- Claim C7 counterexample: for text containing an author-original
quoted name, `add_quotes_to_proper_nouns` adds nothing (the span is
inside an odd number of preceding quotes), yet `remove_added_quotes`
— which ignores the recorded positions entirely — strips the
author's own quotes, so the round trip changes the text. -/
theorem claim_c7_cex :
    remove_added_quotes
      (add_quotes_to_proper_nouns ([quoteC] ++ "John".data ++ [quoteC] ++ " says hi".data)).1
      (add_quotes_to_proper_nouns ([quoteC] ++ "John".data ++ [quoteC] ++ " says hi".data)).2 ≠
      [quoteC] ++ "John".data ++ [quoteC] ++ " says hi".data := by decide

lemma ws_not_alpha {c : Char} (h : isWsC c = true) : isAlphaC c = false := by
  unfold isWsC at h
  simp only [Bool.or_eq_true, decide_eq_true_eq] at h
  rcases h with ((((h | h) | h) | h) | h) | h <;> subst h <;> decide

lemma alpha_not_ws {c : Char} (h : isAlphaC c = true) : isWsC c = false := by
  by_contra hc
  simp only [Bool.not_eq_false] at hc
  rw [ws_not_alpha hc] at h
  cases h

-- True when the head of `s` (if any) fails `p`.
def headNot (p : Char → Bool) : Str → Prop
  | [] => True
  | c :: _ => p c = false

lemma takeWhile_all_stop {p : Char → Bool} : ∀ (xs z : Str), (∀ c ∈ xs, p c = true) →
    headNot p z → (xs ++ z).takeWhile p = xs ∧ (xs ++ z).dropWhile p = z := by
  intro xs
  induction xs with
  | nil =>
    intro z _ hz
    match z with
    | [] => exact ⟨rfl, rfl⟩
    | c :: cs =>
      unfold headNot at hz
      simp [List.takeWhile_cons, List.dropWhile_cons, hz]
  | cons x xs ih =>
    intro z hall hz
    have hx : p x = true := hall x (by simp)
    have hrec := ih z (fun c hc => hall c (by simp [hc])) hz
    simp [List.takeWhile_cons, List.dropWhile_cons, hx, hrec.1, hrec.2]

lemma head_dropWhile_not (p : Char → Bool) : ∀ (l : Str), headNot p (l.dropWhile p) := by
  intro l
  induction l with
  | nil => trivial
  | cons x xs ih =>
    by_cases hx : p x = true
    · simpa [List.dropWhile_cons, hx] using ih
    · simp only [Bool.not_eq_true] at hx
      simp only [List.dropWhile_cons, hx]
      simp only [Bool.false_eq_true, if_false]
      exact hx

lemma mem_takeWhile_sat (p : Char → Bool) : ∀ (l : Str) (c : Char),
    c ∈ l.takeWhile p → p c = true := by
  intro l
  induction l with
  | nil => intro c hc; simp at hc
  | cons x xs ih =>
    intro c hc
    by_cases hx : p x = true
    · rw [List.takeWhile_cons, if_pos hx] at hc
      rcases List.mem_cons.mp hc with h | h
      · rw [h]; exact hx
      · exact ih c h
    · rw [List.takeWhile_cons, if_neg hx] at hc
      simp at hc

lemma upper_alpha {c : Char} (h : isUpperC c = true) : isAlphaC c = true := by
  unfold isAlphaC
  simp [h]

lemma pWord_struct {s w r : Str} (h : pWord s = some (w, r)) :
    s = w ++ r ∧ 2 ≤ w.length ∧ (∀ c ∈ w, isAlphaC c = true) ∧
      (∃ c cs, w = c :: cs ∧ isUpperC c = true) ∧ headNot isAlphaC r := by
  match s with
  | [] => cases h
  | c :: cs =>
    unfold pWord at h
    dsimp only at h
    by_cases hu : isUpperC c = true
    · rw [if_pos hu] at h
      by_cases hl : 1 ≤ (cs.takeWhile (fun x => isAlphaC x)).length
      · rw [if_pos hl] at h
        have hw : w = c :: cs.takeWhile (fun x => isAlphaC x) := by
          injection h with h1
          exact (congrArg Prod.fst h1).symm
        have hr : r = cs.dropWhile (fun x => isAlphaC x) := by
          injection h with h1
          exact (congrArg Prod.snd h1).symm
        subst hw
        subst hr
        refine ⟨by simp [List.takeWhile_append_dropWhile], by simp; omega, ?_,
          ⟨c, _, rfl, hu⟩, head_dropWhile_not _ cs⟩
        intro x hx
        rcases List.mem_cons.mp hx with hxx | hxx
        · rw [hxx]
          exact upper_alpha hu
        · exact mem_takeWhile_sat _ cs x hxx
      · rw [if_neg hl] at h
        cases h
    · rw [if_neg hu] at h
      cases h

lemma pWord_build {w z : Str} (h2 : 2 ≤ w.length) (hall : ∀ c ∈ w, isAlphaC c = true)
    (hup : ∃ c cs, w = c :: cs ∧ isUpperC c = true) (hz : headNot isAlphaC z) :
    pWord (w ++ z) = some (w, z) := by
  obtain ⟨c, cs, rfl, hu⟩ := hup
  have hstop := takeWhile_all_stop (p := fun x => isAlphaC x) cs z
    (fun x hx => hall x (by simp [hx])) hz
  rw [List.cons_append]
  unfold pWord
  dsimp only
  rw [if_pos hu, hstop.1, hstop.2]
  rw [if_pos (by simp at h2 ⊢; omega)]

lemma pExt_struct {s e r : Str} (h : pExt s = some (e, r)) :
    ∃ w v, e = w ++ v ∧ s = e ++ r ∧ w ≠ [] ∧ (∀ c ∈ w, isWsC c = true) ∧
      2 ≤ v.length ∧ (∀ c ∈ v, isAlphaC c = true) ∧
      (∃ c cs, v = c :: cs ∧ isUpperC c = true) ∧ headNot isAlphaC r := by
  unfold pExt at h
  by_cases h1 : 1 ≤ (s.takeWhile (fun x => isWsC x)).length
  · rw [if_pos h1] at h
    rcases hpw : pWord (s.dropWhile fun x => isWsC x) with _ | vr
    · rw [hpw] at h
      cases h
    · rw [hpw] at h
      have he : e = s.takeWhile (fun x => isWsC x) ++ vr.1 := by
        injection h with h1'
        exact (congrArg Prod.fst h1').symm
      have hr : r = vr.2 := by
        injection h with h1'
        exact (congrArg Prod.snd h1').symm
      have hpw2 : pWord (s.dropWhile fun x => isWsC x) = some (vr.1, vr.2) := by
        rw [hpw]
      obtain ⟨hsplit, hv2, hvall, hvup, hvr⟩ := pWord_struct hpw2
      subst hr
      refine ⟨s.takeWhile (fun x => isWsC x), vr.1, he, ?_, ?_,
        fun c hc => mem_takeWhile_sat _ s c hc, hv2, hvall, hvup, hvr⟩
      · rw [he, List.append_assoc, ← hsplit]
        simp [List.takeWhile_append_dropWhile]
      · intro hq
        rw [hq] at h1
        simp at h1
  · rw [if_neg h1] at h
    cases h

lemma pExt_build {w v z : Str} (hw : w ≠ []) (hallw : ∀ c ∈ w, isWsC c = true)
    (hv2 : 2 ≤ v.length) (hallv : ∀ c ∈ v, isAlphaC c = true)
    (hupv : ∃ c cs, v = c :: cs ∧ isUpperC c = true) (hz : headNot isAlphaC z) :
    pExt ((w ++ v) ++ z) = some (w ++ v, z) := by
  have hvnots : headNot (fun x => isWsC x) (v ++ z) := by
    obtain ⟨c, cs, hvc, _⟩ := hupv
    rw [hvc]
    exact alpha_not_ws (hallv c (by rw [hvc]; simp))
  have hstop := takeWhile_all_stop (p := fun x => isWsC x) w (v ++ z) hallw hvnots
  unfold pExt
  rw [List.append_assoc, hstop.1, hstop.2]
  rw [if_pos (by match w, hw with | c :: cs, _ => simp)]
  rw [pWord_build hv2 hallv hupv hz]
lemma pySplitWsF_nil : ∀ n, pySplitWsF n [] = [] := by
  intro n
  cases n <;> rfl

lemma removeQuotesF_nil : ∀ n, removeQuotesF n [] = [] := by
  intro n
  cases n <;> rfl

lemma removeQuotesF_cons {c : Char} (hc : ¬ c = quoteC) (n : Nat) (cs : Str) :
    removeQuotesF (n + 1) (c :: cs) = c :: removeQuotesF n cs := by
  rw [removeQuotesF]
  rw [if_neg hc]

lemma findIdx_quote {rest : Str} : ∀ m : Str, quoteC ∉ m →
    (m ++ quoteC :: rest).findIdx? (fun x => x = quoteC) = some m.length := by
  intro m
  induction m with
  | nil =>
    intro _
    simp [List.findIdx?_cons]
  | cons c cs ih =>
    intro h
    have hc : ¬ (c = quoteC) := by
      intro hcc
      exact h (by rw [hcc]; exact List.mem_cons_self _ _)
    have hih := ih (fun hm => h (List.mem_cons_of_mem _ hm))
    rw [List.cons_append, List.findIdx?_cons]
    simp [hc, hih]

lemma take_before_quote (m rest : Str) : (m ++ quoteC :: rest).take m.length = m :=
  List.take_left m (quoteC :: rest)

lemma drop_after_quote (m rest : Str) : (m ++ quoteC :: rest).drop (m.length + 1) = rest := by
  have h1 : m ++ quoteC :: rest = (m ++ [quoteC]) ++ rest := by simp
  have h2 := List.drop_left (m ++ [quoteC]) rest
  rw [h1]
  simp only [List.length_append, List.length_cons, List.length_nil, Nat.zero_add] at h2
  exact h2

lemma removeQuotesF_wrap {m rest : Str} (n : Nat) (hm : m ≠ []) (hq : quoteC ∉ m)
    (hsh : shapeRegexOk m = true) (hwc : wordCheckOk m = true) :
    removeQuotesF (n + 1) (quoteC :: (m ++ quoteC :: rest)) = m ++ removeQuotesF n rest := by
  rw [removeQuotesF]
  rw [if_pos rfl, findIdx_quote m hq]
  dsimp only
  rw [if_neg (fun h0 => hm (List.length_eq_zero.mp h0))]
  rw [take_before_quote, hsh, hwc]
  rw [if_pos (show (true && true) = true from rfl)]
  rw [drop_after_quote]

lemma shapeTailF_end {s : Str} (h : shapeEndOk s = true) (n : Nat) : shapeTailF n s = true := by
  rw [shapeTailF]
  rw [if_pos h]

lemma shapeTailF_step {s e r : Str} (k : Nat) (hne : shapeEndOk s = false)
    (hp : pExt s = some (e, r)) : shapeTailF (k + 1) s = shapeTailF k r := by
  rw [shapeTailF]
  rw [if_neg (by rw [hne]; exact Bool.false_ne_true), hp]

lemma shapeEndOk_false_of_two {s : Str} (h : 2 ≤ s.length) : shapeEndOk s = false := by
  rcases s with _ | ⟨c1, s2⟩
  · simp at h
  rcases s2 with _ | ⟨c2, cs⟩
  · simp at h
  · simp [shapeEndOk]

-- `z` is empty or starts with a whitespace character.
def wsHead (z : Str) : Prop := z = [] ∨ ∃ d ds, z = d :: ds ∧ isWsC d = true

lemma headNot_alpha_of_ws {w v : Str} (hw : w ≠ []) (hall : ∀ c ∈ w, isWsC c = true) :
    headNot isAlphaC (w ++ v) := by
  rcases w with _ | ⟨c, cs⟩
  · exact absurd rfl hw
  · rw [List.cons_append]
    exact ws_not_alpha (hall c (List.mem_cons_self _ _))

lemma pySplitWsF_ws_skip {u : Str} (hu : ∀ c ∈ u, isWsC c = true) (n : Nat) (s : Str) :
    pySplitWsF n (u ++ s) = pySplitWsF n s := by
  cases n with
  | zero => rfl
  | succ m =>
    have hd : (u ++ s).dropWhile (fun c => isWsC c) = s.dropWhile (fun c => isWsC c) := by
      simp [List.dropWhile_append, List.dropWhile_eq_nil_iff.mpr hu]
    rw [pySplitWsF]
    rw [hd]
    rw [pySplitWsF]

lemma pySplitWsF_word {w z : Str} (hw : w ≠ []) (hall : ∀ c ∈ w, isWsC c = false)
    (hz : wsHead z) (n : Nat) :
    pySplitWsF (n + 1) (w ++ z) = w :: pySplitWsF n z := by
  rcases w with _ | ⟨c, cs⟩
  · exact absurd rfl hw
  have hc : isWsC c = false := hall c (List.mem_cons_self _ _)
  have hstop := takeWhile_all_stop (p := fun x => ¬ isWsC x) (c :: cs) z
    (fun x hx => by simp [hall x hx]) ?hz
  case hz =>
    rcases hz with rfl | ⟨d, ds, rfl, hd⟩
    · trivial
    · show (decide ¬ (isWsC d = true)) = false
      simp [hd]
  have hdrop : ((c :: cs) ++ z).dropWhile (fun c => isWsC c) = (c :: cs) ++ z := by
    rw [List.cons_append, List.dropWhile_cons]
    simp [hc]
  have htake := hstop.1
  rw [List.cons_append] at hdrop htake ⊢
  rw [pySplitWsF]
  rw [hdrop]
  dsimp only
  rw [htake, ← List.cons_append, List.drop_left]
lemma wordCheck_all {ws : List Str}
    (h : ∀ w ∈ ws, (∃ c cs, w = c :: cs ∧ isUpperC c = true) ∧ ∀ c ∈ w, isAlphaC c = true) :
    ws.all
      (fun w =>
        (match w with
         | c :: _ => isUpperC c
         | [] => false) && w.all (fun c => isAlphaC c)) = true := by
  induction ws with
  | nil => rfl
  | cons w ws ih =>
    rw [List.all_cons]
    obtain ⟨⟨c, cs, rfl, hu⟩, hall⟩ := h w (List.mem_cons_self _ _)
    have hrest := ih (fun x hx => h x (List.mem_cons_of_mem _ hx))
    rw [hrest]
    dsimp only
    rw [hu, Bool.true_and, Bool.and_true]
    exact List.all_eq_true.mpr (fun x hx => hall x hx)

lemma wsHead_of_ws {w v : Str} (hw : w ≠ []) (hall : ∀ c ∈ w, isWsC c = true) :
    wsHead (w ++ v) := by
  rcases w with _ | ⟨d, ds⟩
  · exact absurd rfl hw
  · exact Or.inr ⟨d, ds ++ v, List.cons_append d ds v, hall d (List.mem_cons_self _ _)⟩

lemma pySplitWs_last {v : Str} (k : Nat) (hv : v ≠ []) (hnw : ∀ c ∈ v, isWsC c = false) :
    pySplitWsF (k + 1) v = [v] := by
  have h := pySplitWsF_word (z := []) hv hnw (Or.inl rfl) k
  rw [List.append_nil] at h
  rw [h, pySplitWsF_nil]

lemma shapeRegexOk_one {w : Str} (h2 : 2 ≤ w.length) (hall : ∀ c ∈ w, isAlphaC c = true)
    (hup : ∃ c cs, w = c :: cs ∧ isUpperC c = true) : shapeRegexOk w = true := by
  have hb := pWord_build (z := []) h2 hall hup trivial
  rw [List.append_nil] at hb
  unfold shapeRegexOk
  rw [hb]
  dsimp only
  exact shapeTailF_end (s := []) rfl _

lemma shapeRegexOk_two {w0 e1 w1 v1 : Str} (h2 : 2 ≤ w0.length)
    (hall : ∀ c ∈ w0, isAlphaC c = true) (hup : ∃ c cs, w0 = c :: cs ∧ isUpperC c = true)
    (he1 : e1 = w1 ++ v1) (hw1 : w1 ≠ []) (hallw1 : ∀ c ∈ w1, isWsC c = true)
    (hv2 : 2 ≤ v1.length) (hallv1 : ∀ c ∈ v1, isAlphaC c = true)
    (hupv1 : ∃ c cs, v1 = c :: cs ∧ isUpperC c = true) :
    shapeRegexOk (w0 ++ e1) = true := by
  have hhz : headNot isAlphaC e1 := by rw [he1]; exact headNot_alpha_of_ws hw1 hallw1
  have hb := pWord_build h2 hall hup hhz
  have hpe : pExt e1 = some (e1, []) := by
    have h := pExt_build (z := []) hw1 hallw1 hv2 hallv1 hupv1 trivial
    rw [List.append_nil] at h
    rw [he1]
    exact h
  have hw1len : 1 ≤ w1.length := by
    rcases w1 with _ | ⟨a, b⟩
    · exact absurd rfl hw1
    · simp
  have hlen1 : 3 ≤ e1.length := by
    rw [he1, List.length_append]
    omega
  have hfuel : ∃ k, (w0 ++ e1).length = k + 1 := by
    refine ⟨(w0 ++ e1).length - 1, ?_⟩
    rw [List.length_append]
    omega
  obtain ⟨k, hk⟩ := hfuel
  unfold shapeRegexOk
  rw [hb]
  dsimp only
  rw [hk]
  rw [shapeTailF_step k (shapeEndOk_false_of_two (by omega)) hpe]
  exact shapeTailF_end (s := []) rfl _

lemma shapeRegexOk_three {w0 e1 w1 v1 e2 w2 v2 : Str} (h2 : 2 ≤ w0.length)
    (hall : ∀ c ∈ w0, isAlphaC c = true) (hup : ∃ c cs, w0 = c :: cs ∧ isUpperC c = true)
    (he1 : e1 = w1 ++ v1) (hw1 : w1 ≠ []) (hallw1 : ∀ c ∈ w1, isWsC c = true)
    (hv21 : 2 ≤ v1.length) (hallv1 : ∀ c ∈ v1, isAlphaC c = true)
    (hupv1 : ∃ c cs, v1 = c :: cs ∧ isUpperC c = true)
    (he2 : e2 = w2 ++ v2) (hw2 : w2 ≠ []) (hallw2 : ∀ c ∈ w2, isWsC c = true)
    (hv22 : 2 ≤ v2.length) (hallv2 : ∀ c ∈ v2, isAlphaC c = true)
    (hupv2 : ∃ c cs, v2 = c :: cs ∧ isUpperC c = true) :
    shapeRegexOk (w0 ++ e1 ++ e2) = true := by
  have h1hz : headNot isAlphaC (e1 ++ e2) := by
    rw [he1, List.append_assoc]
    exact headNot_alpha_of_ws hw1 hallw1
  have h2hz : headNot isAlphaC e2 := by rw [he2]; exact headNot_alpha_of_ws hw2 hallw2
  have hb := pWord_build h2 hall hup h1hz
  have hpe1 : pExt (e1 ++ e2) = some (e1, e2) := by
    have h := pExt_build hw1 hallw1 hv21 hallv1 hupv1 h2hz
    rw [← he1] at h
    exact h
  have hpe2 : pExt e2 = some (e2, []) := by
    have h := pExt_build (z := []) hw2 hallw2 hv22 hallv2 hupv2 trivial
    rw [List.append_nil] at h
    rw [he2]
    exact h
  have hw1len : 1 ≤ w1.length := by
    rcases w1 with _ | ⟨a, b⟩
    · exact absurd rfl hw1
    · simp
  have hw2len : 1 ≤ w2.length := by
    rcases w2 with _ | ⟨a, b⟩
    · exact absurd rfl hw2
    · simp
  have hlen1 : 3 ≤ e1.length := by
    rw [he1, List.length_append]
    omega
  have hlen2 : 3 ≤ e2.length := by
    rw [he2, List.length_append]
    omega
  have hfuel : ∃ k, (w0 ++ (e1 ++ e2)).length = (k + 1) + 1 := by
    refine ⟨(w0 ++ (e1 ++ e2)).length - 2, ?_⟩
    rw [List.length_append, List.length_append]
    omega
  obtain ⟨k, hk⟩ := hfuel
  unfold shapeRegexOk
  rw [List.append_assoc, hb]
  dsimp only
  rw [hk]
  rw [shapeTailF_step (k + 1) (shapeEndOk_false_of_two (by rw [List.length_append]; omega)) hpe1]
  rw [shapeTailF_step k (shapeEndOk_false_of_two (by omega)) hpe2]
  exact shapeTailF_end (s := []) rfl _
lemma wordCheckOk_one {w : Str} (h2 : 2 ≤ w.length) (hall : ∀ c ∈ w, isAlphaC c = true)
    (hup : ∃ c cs, w = c :: cs ∧ isUpperC c = true) : wordCheckOk w = true := by
  have hsplit : pySplitWs w = [w] := by
    unfold pySplitWs
    have hfuel : ∃ k, w.length = k + 1 := ⟨w.length - 1, by omega⟩
    obtain ⟨k, hk⟩ := hfuel
    rw [hk]
    exact pySplitWs_last k (fun h0 => by simp [h0] at h2)
      (fun c hc => alpha_not_ws (hall c hc))
  unfold wordCheckOk
  rw [hsplit]
  exact wordCheck_all (fun x hx => by
    rw [List.mem_singleton] at hx
    subst hx
    exact ⟨hup, hall⟩)

lemma wordCheckOk_two {w0 e1 w1 v1 : Str} (h2 : 2 ≤ w0.length)
    (hall : ∀ c ∈ w0, isAlphaC c = true) (hup : ∃ c cs, w0 = c :: cs ∧ isUpperC c = true)
    (he1 : e1 = w1 ++ v1) (hw1 : w1 ≠ []) (hallw1 : ∀ c ∈ w1, isWsC c = true)
    (hv2 : 2 ≤ v1.length) (hallv1 : ∀ c ∈ v1, isAlphaC c = true)
    (hupv1 : ∃ c cs, v1 = c :: cs ∧ isUpperC c = true) :
    wordCheckOk (w0 ++ e1) = true := by
  have hw1len : 1 ≤ w1.length := by
    rcases w1 with _ | ⟨a, b⟩
    · exact absurd rfl hw1
    · simp
  have hlen1 : 3 ≤ e1.length := by
    rw [he1, List.length_append]
    omega
  have hsplit : pySplitWs (w0 ++ e1) = [w0, v1] := by
    unfold pySplitWs
    have hfuel : ∃ k, (w0 ++ e1).length = (k + 1) + 1 := by
      refine ⟨(w0 ++ e1).length - 2, ?_⟩
      rw [List.length_append]
      omega
    obtain ⟨k, hk⟩ := hfuel
    rw [hk, he1]
    rw [pySplitWsF_word (fun h0 => by simp [h0] at h2)
      (fun c hc => alpha_not_ws (hall c hc)) (wsHead_of_ws hw1 hallw1) (k + 1)]
    rw [pySplitWsF_ws_skip hallw1]
    rw [pySplitWs_last k (fun h0 => by simp [h0] at hv2)
      (fun c hc => alpha_not_ws (hallv1 c hc))]
  unfold wordCheckOk
  rw [hsplit]
  exact wordCheck_all (fun x hx => by
    rcases List.mem_cons.mp hx with rfl | hx2
    · exact ⟨hup, hall⟩
    · rw [List.mem_singleton] at hx2
      subst hx2
      exact ⟨hupv1, hallv1⟩)

lemma wordCheckOk_three {w0 e1 w1 v1 e2 w2 v2 : Str} (h2 : 2 ≤ w0.length)
    (hall : ∀ c ∈ w0, isAlphaC c = true) (hup : ∃ c cs, w0 = c :: cs ∧ isUpperC c = true)
    (he1 : e1 = w1 ++ v1) (hw1 : w1 ≠ []) (hallw1 : ∀ c ∈ w1, isWsC c = true)
    (hv21 : 2 ≤ v1.length) (hallv1 : ∀ c ∈ v1, isAlphaC c = true)
    (hupv1 : ∃ c cs, v1 = c :: cs ∧ isUpperC c = true)
    (he2 : e2 = w2 ++ v2) (hw2 : w2 ≠ []) (hallw2 : ∀ c ∈ w2, isWsC c = true)
    (hv22 : 2 ≤ v2.length) (hallv2 : ∀ c ∈ v2, isAlphaC c = true)
    (hupv2 : ∃ c cs, v2 = c :: cs ∧ isUpperC c = true) :
    wordCheckOk (w0 ++ e1 ++ e2) = true := by
  have hw1len : 1 ≤ w1.length := by
    rcases w1 with _ | ⟨a, b⟩
    · exact absurd rfl hw1
    · simp
  have hw2len : 1 ≤ w2.length := by
    rcases w2 with _ | ⟨a, b⟩
    · exact absurd rfl hw2
    · simp
  have hlen1 : 3 ≤ e1.length := by
    rw [he1, List.length_append]
    omega
  have hlen2 : 3 ≤ e2.length := by
    rw [he2, List.length_append]
    omega
  have hz1 : wsHead (e1 ++ e2) := by
    rw [he1, List.append_assoc]
    exact wsHead_of_ws hw1 hallw1
  have hz2 : wsHead e2 := by
    rw [he2]
    exact wsHead_of_ws hw2 hallw2
  have hsplit : pySplitWs (w0 ++ e1 ++ e2) = [w0, v1, v2] := by
    unfold pySplitWs
    have hfuel : ∃ k, ((w0 ++ e1) ++ e2).length = ((k + 1) + 1) + 1 := by
      refine ⟨((w0 ++ e1) ++ e2).length - 3, ?_⟩
      rw [List.length_append, List.length_append]
      omega
    obtain ⟨k, hk⟩ := hfuel
    rw [hk, List.append_assoc]
    rw [pySplitWsF_word (fun h0 => by simp [h0] at h2)
      (fun c hc => alpha_not_ws (hall c hc)) hz1 ((k + 1) + 1)]
    rw [he1, List.append_assoc]
    rw [pySplitWsF_ws_skip hallw1]
    rw [pySplitWsF_word (fun h0 => by simp [h0] at hv21)
      (fun c hc => alpha_not_ws (hallv1 c hc)) hz2 (k + 1)]
    rw [he2]
    rw [pySplitWsF_ws_skip hallw2]
    rw [pySplitWs_last k (fun h0 => by simp [h0] at hv22)
      (fun c hc => alpha_not_ws (hallv2 c hc))]
  unfold wordCheckOk
  rw [hsplit]
  exact wordCheck_all (fun x hx => by
    rcases List.mem_cons.mp hx with rfl | hx2
    · exact ⟨hup, hall⟩
    rcases List.mem_cons.mp hx2 with rfl | hx3
    · exact ⟨hupv1, hallv1⟩
    · rw [List.mem_singleton] at hx3
      subst hx3
      exact ⟨hupv2, hallv2⟩)

lemma pn_shape_one {s w0 r0 : Str} (hw : pWord s = some (w0, r0)) :
    s = w0 ++ r0 ∧ w0 ≠ [] ∧ shapeRegexOk w0 = true ∧ wordCheckOk w0 = true := by
  obtain ⟨hs, h2, hall, hup, _⟩ := pWord_struct hw
  refine ⟨hs, fun h0 => by simp [h0] at h2, shapeRegexOk_one h2 hall hup,
    wordCheckOk_one h2 hall hup⟩

lemma pn_shape_two {s w0 r0 e1 r1 : Str} (hw : pWord s = some (w0, r0))
    (h1 : pExt r0 = some (e1, r1)) :
    s = (w0 ++ e1) ++ r1 ∧ w0 ++ e1 ≠ [] ∧ shapeRegexOk (w0 ++ e1) = true ∧
      wordCheckOk (w0 ++ e1) = true := by
  obtain ⟨hs, h2, hall, hup, _⟩ := pWord_struct hw
  obtain ⟨w1, v1, he1, hr0, hw1, hallw1, hv2, hallv1, hupv1, _⟩ := pExt_struct h1
  refine ⟨?_, ?_, shapeRegexOk_two h2 hall hup he1 hw1 hallw1 hv2 hallv1 hupv1,
    wordCheckOk_two h2 hall hup he1 hw1 hallw1 hv2 hallv1 hupv1⟩
  · rw [hs, hr0, List.append_assoc]
  · intro h0
    have := (List.append_eq_nil.mp h0).1
    simp [this] at h2

lemma pn_shape_three {s w0 r0 e1 r1 e2 r2 : Str} (hw : pWord s = some (w0, r0))
    (h1 : pExt r0 = some (e1, r1)) (hx2 : pExt r1 = some (e2, r2)) :
    s = (w0 ++ e1 ++ e2) ++ r2 ∧ w0 ++ e1 ++ e2 ≠ [] ∧
      shapeRegexOk (w0 ++ e1 ++ e2) = true ∧ wordCheckOk (w0 ++ e1 ++ e2) = true := by
  obtain ⟨hs, h2, hall, hup, _⟩ := pWord_struct hw
  obtain ⟨w1, v1, he1, hr0, hw1, hallw1, hv21, hallv1, hupv1, _⟩ := pExt_struct h1
  obtain ⟨w2, v2, he2, hr1, hw2, hallw2, hv22, hallv2, hupv2, _⟩ := pExt_struct hx2
  refine ⟨?_, ?_,
    shapeRegexOk_three h2 hall hup he1 hw1 hallw1 hv21 hallv1 hupv1 he2 hw2 hallw2 hv22
      hallv2 hupv2,
    wordCheckOk_three h2 hall hup he1 hw1 hallw1 hv21 hallv1 hupv1 he2 hw2 hallw2 hv22
      hallv2 hupv2⟩
  · rw [hs, hr0, hr1]
    simp [List.append_assoc]
  · intro h0
    have := (List.append_eq_nil.mp (List.append_eq_nil.mp h0).1).1
    simp [this] at h2
lemma pnMatch_struct {s m rest : Str} (h : pnMatch s = some (m, rest)) :
    s = m ++ rest ∧ m ≠ [] ∧ shapeRegexOk m = true ∧ wordCheckOk m = true := by
  unfold pnMatch at h
  rcases hw : pWord s with _ | ⟨w0, r0⟩ <;> rw [hw] at h <;> dsimp only at h
  · cases h
  rcases h1 : pExt r0 with _ | ⟨e1, r1⟩ <;> rw [h1] at h <;> dsimp only at h
  · by_cases hb : bdryOk r0 = true
    · rw [if_pos hb] at h
      injection h with hpair
      injection hpair with hm hr
      subst hm
      subst hr
      exact pn_shape_one hw
    · rw [if_neg hb] at h
      cases h
  · rcases hx2 : pExt r1 with _ | ⟨e2, r2⟩ <;> rw [hx2] at h <;> dsimp only at h
    · by_cases hb : bdryOk r1 = true
      · rw [if_pos hb] at h
        injection h with hpair
        injection hpair with hm hr
        subst hm
        subst hr
        exact pn_shape_two hw h1
      · rw [if_neg hb] at h
        injection h with hpair
        injection hpair with hm hr
        subst hm
        subst hr
        exact pn_shape_one hw
    · by_cases hb : bdryOk r2 = true
      · rw [if_pos hb] at h
        injection h with hpair
        injection hpair with hm hr
        subst hm
        subst hr
        exact pn_shape_three hw h1 hx2
      · rw [if_neg hb] at h
        injection h with hpair
        injection hpair with hm hr
        subst hm
        subst hr
        exact pn_shape_two hw h1
lemma addQuotes_rt {orig : Str} (ho : quoteC ∉ orig) :
    ∀ (fp : Nat) (s : Str) (pos : Nat) (pw : Bool), s.length ≤ fp → quoteC ∉ s →
      ∀ nf : Nat, (addQuotesF orig fp s pos pw).1.length ≤ nf →
        removeQuotesF nf (addQuotesF orig fp s pos pw).1 = s := by
  intro fp
  induction fp with
  | zero =>
    intro s pos pw hlen hs nf _
    have hs0 : s = [] := List.length_eq_zero.mp (Nat.le_zero.mp hlen)
    subst hs0
    rw [show (addQuotesF orig 0 [] pos pw).1 = [] from rfl]
    exact removeQuotesF_nil nf
  | succ n ih =>
    intro s pos pw hlen hs nf hnf
    rcases s with _ | ⟨c, cs⟩
    · rw [show (addQuotesF orig (n + 1) [] pos pw).1 = [] from rfl]
      exact removeQuotesF_nil nf
    rw [addQuotesF] at hnf ⊢
    rcases hm : (if pw = true then none else pnMatch (c :: cs)) with _ | ⟨m, rest⟩ <;>
      rw [hm] at hnf <;> dsimp only at hnf ⊢
    · rcases nf with _ | nf'
      · exfalso
        simp only [List.length_cons] at hnf
        omega
      rw [removeQuotesF_cons (fun hcq => hs (by rw [hcq]; exact List.mem_cons_self _ _)) nf']
      have hstep := ih cs (pos + 1) (isWordC c)
        (by simp only [List.length_cons] at hlen; omega)
        (fun hmem => hs (List.mem_cons_of_mem _ hmem)) nf'
        (by simp only [List.length_cons] at hnf; omega)
      rw [hstep]
    · have hpn : pnMatch (c :: cs) = some (m, rest) := by
        rcases pw with _ | _
        · simpa using hm
        · simp at hm
      obtain ⟨hsm, hmne, hsh, hwc⟩ := pnMatch_struct hpn
      have hqm : quoteC ∉ m := fun hmem => hs (hsm ▸ List.mem_append.mpr (Or.inl hmem))
      have hcnt : (orig.take pos).count quoteC = 0 :=
        List.count_eq_zero.mpr (fun hmem => ho (List.take_subset _ _ hmem))
      simp only [hcnt] at hnf ⊢
      rw [if_neg (show ¬ ((0 : Nat) % 2 = 1) by decide)] at hnf ⊢
      rcases nf with _ | nf'
      · exfalso
        simp only [List.length_cons] at hnf
        omega
      rw [removeQuotesF_wrap nf' hmne hqm hsh hwc]
      have hm1 : 1 ≤ m.length := by
        rcases m with _ | ⟨a, b⟩
        · exact absurd rfl hmne
        · simp
      have hlm : (c :: cs).length = m.length + rest.length := by
        rw [hsm, List.length_append]
      have hstep := ih rest (pos + m.length) true
        (by simp only [List.length_cons] at hlen hlm; omega)
        (fun hmem => hs (hsm ▸ List.mem_append.mpr (Or.inr hmem))) nf'
        (by simp only [List.length_cons, List.length_append] at hnf; omega)
      rw [hstep]
      exact hsm.symm
/-- Claim C7 (amended): for any input text that contains no quote
character of its own, `remove_added_quotes` applied to the output of
`add_quotes_to_proper_nouns` restores the text exactly — the engine
only wraps spans matching the proper-noun pattern, and every wrapped
span passes both the shape regex and the per-word checks of
`should_remove_quotes`, so all added quotes are removed and nothing
else changes.  (Unrestricted, the claim is false: see the
counterexample with pre-existing quotes.) -/
theorem claim_c7_amended (t : Str) (h : quoteC ∉ t) :
    remove_added_quotes (add_quotes_to_proper_nouns t).1
      (add_quotes_to_proper_nouns t).2 = t := by
  unfold remove_added_quotes add_quotes_to_proper_nouns
  exact addQuotes_rt h t.length t 0 false (Nat.le_refl _) h _ (Nat.le_refl _)

theorem claim_c7_amended_witness :
    remove_added_quotes
      (add_quotes_to_proper_nouns "See Alice Munro Vargas tomorrow at noon".data).1
      (add_quotes_to_proper_nouns "See Alice Munro Vargas tomorrow at noon".data).2 =
      "See Alice Munro Vargas tomorrow at noon".data :=
  claim_c7_amended _ (by decide)
